import Mathlib

/-!
# align: folding and aligning lines of text

A shallow embedding of `src/align.cpp` and theorems about it.

Conventions of the embedding.

* A `std::string` is a `List Char` (`Str`); one `Char` stands for one byte, and
  `length()` is `List.length`.
* `std::string::npos` is `none`; a position that was found is `some p`.
* `unsigned char width` is a `Nat`; the theorems that depend on the range of
  the type carry the hypothesis `width ≤ 255`.
* `int padding = width - slug.length()` is computed in `size_t` and narrowed
  to `int`: see `size_t_sub` and `int_of_size_t`.
* The two loops whose termination is not evident from a counter
  (`tokenize`, `justify_slug`) take a `fuel` argument; the other loops are
  structural recursions. `tokenize` returns `none` when the fuel runs out.
* The loop of `justify_slug` ends in an `Outcome`: a slug is returned, the fuel
  runs out, or the `int` counter `i` is incremented at `INT_MAX`, which is
  undefined behaviour. `justify_slug` and `align_para` are `none` when no string
  is returned.
-/

namespace Align

/-- A `std::string`. -/
abbrev Str := List Char

/-! ## Machine arithmetic -/

/-- The modulus of `size_t` (64 bits). -/
def SIZE_MOD : Nat := 18446744073709551616

/-- Subtraction `a - b` of two `size_t` values, which wraps around. -/
def size_t_sub (a b : Nat) : Nat := (a % SIZE_MOD + SIZE_MOD - b % SIZE_MOD) % SIZE_MOD

/-- Narrowing of a `size_t` to a 32-bit `int`: the low 32 bits, read in
two's complement. -/
def int_of_size_t (n : Nat) : Int :=
  if n % 4294967296 < 2147483648 then ((n % 4294967296 : Nat) : Int)
  else ((n % 4294967296 : Nat) : Int) - 4294967296

/-- Conversion of an `int` to `unsigned char`, as happens to the argument `max` of
`replace`. -/
def uchar_of_int (n : Int) : Nat := (n % 256).toNat

/-! ## Helper functions -/

/-- The search common to `find_first_of` and `find_first_not_of`: the index of
the first character of `s` that satisfies `p`, counting from `i`. -/
def find_if (p : Char → Bool) : Str → Nat → Option Nat
  | [], _ => none
  | c :: cs, i => if p c then some i else find_if p cs (i + 1)

/-- The call `str.find_first_not_of(delimiters, pos)`; a start at `npos` (or past the end)
finds nothing. -/
def find_first_not_of (str delimiters : Str) (pos : Option Nat) : Option Nat :=
  match pos with
  | none => none
  | some p => find_if (fun c => !delimiters.contains c) (str.drop p) p

/-- The call `str.find_first_of(delimiters, pos)`. -/
def find_first_of (str delimiters : Str) (pos : Option Nat) : Option Nat :=
  match pos with
  | none => none
  | some p => find_if (fun c => delimiters.contains c) (str.drop p) p

/-- The call `str.substr(lastPos, pos - lastPos)` of `tokenize`: when `pos` is `npos`
the count exceeds what is left and the rest of the string is taken. -/
def substr (str : Str) (lastPos : Nat) (pos : Option Nat) : Str :=
  match pos with
  | none => str.drop lastPos
  | some p => (str.drop lastPos).take (p - lastPos)

/-- The `while` loop of `tokenize`, on the state `(lastPos, pos, tokens)`. The loop
runs while one of the two positions is not `npos`. A `substr` at `npos` would throw,
which is the result `none` of the inner `match`; that state is not reached, since
`pos` is searched from `lastPos` and is `npos` when `lastPos` is. -/
def tokenize_loop (str delimiters : Str) : Nat → Option Nat → Option Nat → List Str →
    Option (List Str)
  | 0, _, _, _ => none
  | fuel + 1, lastPos, pos, tokens =>
    if pos ≠ none ∨ lastPos ≠ none then
      match lastPos with
      | none => none
      | some lp =>
        let tokens := tokens ++ [substr str lp pos]
        let lastPos := find_first_not_of str delimiters pos
        let pos := find_first_of str delimiters lastPos
        tokenize_loop str delimiters fuel lastPos pos tokens
    else some tokens

/-- The function `tokenize`: appends the tokens of `str` to `tokens`. -/
def tokenize (fuel : Nat) (str : Str) (tokens : List Str) (delimiters : Str := [' ']) :
    Option (List Str) :=
  let lastPos := find_first_not_of str delimiters (some 0)
  let pos := find_first_of str delimiters lastPos
  tokenize_loop str delimiters fuel lastPos pos tokens

/-- The search of `out.find(find, pos)` inside the part of the string that starts at
index `i`. -/
def find_sub (find : Str) : Str → Nat → Option Nat
  | [], i => if find = [] then some i else none
  | c :: cs, i => if find.isPrefixOf (c :: cs) then some i else find_sub find cs (i + 1)

/-- The call `out.find(find, pos)`: the first index at or after `pos` where `find` occurs. -/
def str_find (out find : Str) (pos : Nat) : Option Nat :=
  if pos ≤ out.length then find_sub find (out.drop pos) pos else none

/-- The `for` loop of `replace`. The first argument is `max - replaced`, which the
loop counts down; `replaced` is below `max ≤ 255` whenever it is incremented, so it
does not wrap. -/
def replace_loop (find repl : Str) : Nat → Str → Nat → Str
  | 0, out, _ => out
  | budget + 1, out, pos =>
    match str_find out find pos with
    | none => out
    | some p =>
      replace_loop find repl budget (out.take p ++ repl ++ out.drop (p + find.length))
        (p + repl.length)

/-- The function `replace`: replaces up to `max` occurrences of `find` with `repl` in
`input`; `max` is the value of the `unsigned char` parameter. -/
def replace (input find repl : Str) (max : Nat) (from_end : Bool := false) : Str :=
  let out := if from_end then input.reverse else input
  let find := if from_end then find.reverse else find
  let repl := if from_end then repl.reverse else repl
  let out := if find.length ≠ 0 then replace_loop find repl max out 0 else out
  if from_end then out.reverse else out

/-! ## Alignment functions for slugs -/

/-- The four kinds of alignment. -/
inductive Alignment
  | align_left
  | align_right
  | align_center
  | align_justify
  deriving DecidableEq, Repr

/-- The table `justify_replacements`, indexed by `r = i % 4`. -/
def justify_replacements (r : Nat) : Str × Str :=
  match r with
  | 0 => (['.', ' '], ['.', ' ', ' '])
  | 1 => ([';', ' '], [';', ' ', ' '])
  | 2 => ([',', ' '], [',', ' ', ' '])
  | _ => ([' '], [' ', ' '])

/-- The expression `width - slug.length()` stored in an `int`. -/
def padding_of (width len : Nat) : Int := int_of_size_t (size_t_sub width len)

/-- The ways in which a run of the loop of `justify_slug` with some fuel ends: the
loop is left and the slug returned, the counter `i` overflows, or the fuel runs out
while the loop is still going. -/
inductive Outcome
  | returned (slug : Str)
  | undefined
  | out_of_fuel
  deriving DecidableEq, Repr

/-- The largest `int`. -/
def INT_MAX : Nat := 2147483647

/-- The `while` loop of `justify_slug`, on the state `(slug, padding, i)`. The counter
`i` is an `int` that starts at 0: while it is not negative `i % 4` is the remainder of
`Nat`, and the increment `i++` at `INT_MAX` is a signed overflow, after which nothing
is defined. -/
def justify_loop (width : Nat) (rtl : Bool) : Nat → Str → Int → Nat → Outcome
  | 0, _, _, _ => .out_of_fuel
  | fuel + 1, slug, padding, i =>
    if padding > 0 then
      let r := i % 4
      let slug := replace slug (justify_replacements r).1 (justify_replacements r).2
        (uchar_of_int padding) rtl
      let padding := padding_of width slug.length
      if i < INT_MAX then justify_loop width rtl fuel slug padding (i + 1)
      else .undefined
    else .returned slug

/-- The function `justify_slug`: given a literal slug of text, justify to the width.
The result is `none` when the loop returns no slug. -/
def justify_slug (fuel : Nat) (slug : Str) (width : Nat) (rtl : Bool) : Option Str :=
  let padding := padding_of width slug.length
  match justify_loop width rtl fuel slug padding 0 with
  | .returned slug => some slug
  | .undefined => none
  | .out_of_fuel => none

/-- The function `center_slug`. The quotient `padding / 2` of two `int`s truncates
towards zero. -/
def center_slug (slug : Str) (width : Nat) : Str :=
  let padding := padding_of width slug.length
  let left := Int.tdiv padding 2
  let right := padding - left
  List.replicate left.toNat ' ' ++ slug ++ List.replicate right.toNat ' '

/-- The function `right_slug`. -/
def right_slug (slug : Str) (width : Nat) : Str :=
  let padding := padding_of width slug.length
  List.replicate padding.toNat ' ' ++ slug

/-- The predicate of `boost::algorithm::trim_copy`: `std::isspace` in the classic
locale, which the program never changes. -/
def is_space (c : Char) : Bool :=
  c == ' ' || c == '\t' || c == '\n' || c == '\x0b' || c == '\x0c' || c == '\r'

/-- The call `boost::algorithm::trim_copy(para)`: `para` without the white space at
its two ends. -/
def trim_copy (para : Str) : Str :=
  ((para.reverse.dropWhile is_space).reverse).dropWhile is_space

/-- The expression `current_slug.substr(0, current_slug.length()-1)`: on the empty
string the length minus one wraps to `npos`, and the whole (empty) string is
returned. -/
def drop_separator (current_slug : Str) : Str :=
  if current_slug.length = 0 then current_slug else current_slug.take (current_slug.length - 1)

/-- The first `for` loop of `align_para`, over the words that are left, on the state
`(slugs, current_slug)`. -/
def align_loop (fuel : Nat) (width : Nat) (alignment : Alignment) :
    List Str → List Str → Str → Option (List Str × Str)
  | [], slugs, current_slug => some (slugs, current_slug)
  | word :: words, slugs, current_slug =>
    if current_slug.length + 1 + word.length ≤ width then
      align_loop fuel width alignment words slugs (current_slug ++ (word ++ [' ']))
    else
      let current_slug := drop_separator current_slug
      let aligned : Option Str :=
        match alignment with
        | .align_justify => justify_slug fuel current_slug width (slugs.length % 2 != 0)
        | .align_left => some current_slug
        | .align_right => some (right_slug current_slug width)
        | .align_center => some (center_slug current_slug width)
      match aligned with
      | none => none
      | some current_slug =>
        align_loop fuel width alignment words (slugs ++ [current_slug]) (word ++ [' '])

/-- The last loop of `align_para`: the slugs with a line break after each one but the
last. -/
def join_slugs : List Str → Str
  | [] => []
  | [slug] => slug
  | slug :: next :: slugs => slug ++ '\n' :: join_slugs (next :: slugs)

/-- The slugs that `align_para` joins, for a line that is not passed through. -/
def align_slugs (fuel : Nat) (trimmed : Str) (width : Nat) (alignment : Alignment) :
    Option (List Str) :=
  match tokenize fuel trimmed [] [' '] with
  | none => none
  | some words =>
    match align_loop fuel width alignment words [] [] with
    | none => none
    | some (slugs, current_slug) =>
      let current_slug := drop_separator current_slug
      match alignment with
      | .align_justify | .align_left => some (slugs ++ [current_slug])
      | .align_right => some (slugs ++ [right_slug current_slug width])
      | .align_center => some (slugs ++ [center_slug current_slug width])

/-- The test of `align_para` for a line that should not be justified, on the trimmed
line. -/
def pass_through (trimmed : Str) : Bool :=
  trimmed.length == 0 || trimmed.head? == some '|' || trimmed.head? == some '*' ||
    trimmed.head? == some '-' || trimmed.head? == some '#'

/-- The function `align_para`: given a paragraph, align it. The result is `none` when
the fuel does not suffice. -/
def align_para (fuel : Nat) (para : Str) (width : Nat := 72)
    (alignment : Alignment := .align_justify) : Option Str :=
  let trimmed := trim_copy para
  if pass_through trimmed then
    some para
  else
    match align_slugs fuel trimmed width alignment with
    | none => none
    | some slugs => some (join_slugs slugs)

/-! ## Specification-side definitions

These definitions are not in the source; the theorems use them to say what the
source computes. -/

/-- The words of `s`: the maximal runs of characters that are not delimiters, read
from the left. -/
def split_words (delims : Str) : Str → List Str
  | [] => []
  | c :: cs =>
    if delims.contains c then split_words delims cs
    else
      match cs with
      | [] => [[c]]
      | d :: _ =>
        if delims.contains d then [c] :: split_words delims cs
        else
          match split_words delims cs with
          | [] => [[c]]
          | t :: ts => (c :: t) :: ts

/-- The relation between a string and its tokens: runs of delimiters and tokens
alternate, and every token is followed by a delimiter or by the end. -/
inductive Tokens (delims : Str) : Str → List Str → Prop
  | nil (s : Str) : (∀ c ∈ s, c ∈ delims) → Tokens delims s []
  | cons (d t rest : Str) (ts : List Str) : (∀ c ∈ d, c ∈ delims) → t ≠ [] →
      (∀ c ∈ t, c ∉ delims) → (rest = [] ∨ ∃ c r, rest = c :: r ∧ c ∈ delims) →
      Tokens delims rest ts → Tokens delims (d ++ (t ++ rest)) (t :: ts)

/-- The string `sep₀ t₁ sep₁ t₂ … tₙ sepₙ`, for separators `seps` and tokens `ts`. -/
def weave : List Str → List Str → Str
  | [], _ => []
  | sep :: _, [] => sep
  | sep :: seps, t :: ts => sep ++ (t ++ weave seps ts)

/-- The lines of a text: the parts between its line breaks. -/
def lines_of : Str → List Str
  | [] => [[]]
  | c :: cs =>
    if c = '\n' then [] :: lines_of cs
    else
      match lines_of cs with
      | [] => [[c]]
      | l :: ls => (c :: l) :: ls

/-- The words of a group joined by single spaces. -/
def unwords (g : List Str) : Str := List.intercalate [' '] g

/-- The slug under construction for a group of words: every word followed by a
space. -/
def trail : List Str → Str
  | [] => []
  | w :: ws => w ++ ' ' :: trail ws

/-- The groups of words that the loop of `align_para` forms from the words that are
left and the group `g` of the slug under construction: the groups it closes, and
the group of the slug it ends with. -/
def pack (width : Nat) : List Str → List Str → List (List Str) × List Str
  | [], g => ([], g)
  | w :: ws, g =>
    if (trail g).length + 1 + w.length ≤ width then pack width ws (g ++ [w])
    else ((g :: (pack width ws [w]).1), (pack width ws [w]).2)

/-- The treatment that the loop of `align_para` gives to a slug it closes, when
`n` slugs have been closed before it. -/
def close_slug (fuel width : Nat) (alignment : Alignment) (n : Nat) (slug : Str) :
    Option Str :=
  match alignment with
  | .align_justify => justify_slug fuel slug width (n % 2 != 0)
  | .align_left => some slug
  | .align_right => some (right_slug slug width)
  | .align_center => some (center_slug slug width)

/-- The slugs after the groups `gs` have been closed in turn, `slugs` being the
slugs closed before them. -/
def close_all (fuel width : Nat) (alignment : Alignment) :
    List (List Str) → List Str → Option (List Str)
  | [], slugs => some slugs
  | g :: gs, slugs =>
    match close_slug fuel width alignment slugs.length (unwords g) with
    | none => none
    | some slug => close_all fuel width alignment gs (slugs ++ [slug])

/-- The treatment that `align_para` gives to the final slug. -/
def close_final (width : Nat) (alignment : Alignment) (slug : Str) : Str :=
  match alignment with
  | .align_justify | .align_left => slug
  | .align_right => right_slug slug width
  | .align_center => center_slug slug width

/-- The groups of words of the slugs of a line with the words `words`, in order. -/
def groups (width : Nat) (words : List Str) : List (List Str) :=
  (pack width words []).1 ++ [(pack width words []).2]

/-- The left-to-right scan of a string for occurrences of `find` that do not overlap,
with up to `budget` of them replaced by `repl`; `skip` characters of an occurrence
that was found are still to be passed over. The replacements are not scanned. -/
def scan_replace (find repl : Str) : Nat → Nat → Str → Str
  | _, _, [] => []
  | budget, skip + 1, _ :: cs => scan_replace find repl budget skip cs
  | 0, 0, c :: cs => c :: cs
  | budget + 1, 0, c :: cs =>
    if find.isPrefixOf (c :: cs) then repl ++ scan_replace find repl budget (find.length - 1) cs
    else c :: scan_replace find repl (budget + 1) 0 cs

/-- The number of occurrences of `find` that the left-to-right scan meets. -/
def scan_count (find : Str) : Nat → Str → Nat
  | _, [] => 0
  | skip + 1, _ :: cs => scan_count find skip cs
  | 0, c :: cs =>
    if find.isPrefixOf (c :: cs) then 1 + scan_count find (find.length - 1) cs
    else scan_count find 0 cs

/-- The string with the runs of characters of `ws` at its ends removed and every run
inside it replaced by one space. -/
def collapse_runs (ws : Char → Bool) : Str → Str
  | [] => []
  | c :: cs =>
    if ws c then collapse_runs ws cs
    else
      match cs with
      | [] => [c]
      | d :: _ =>
        if ws d then (if cs.all ws then [c] else c :: ' ' :: collapse_runs ws cs)
        else c :: collapse_runs ws cs

/-- The string `t` is `s` after `n` insertions of a space next to a space. -/
inductive Stretched : Nat → Str → Str → Prop
  | refl (s : Str) : Stretched 0 s s
  | step (n : Nat) (s u v : Str) : Stretched n s (u ++ ' ' :: v) →
      Stretched (n + 1) s (u ++ ' ' :: ' ' :: v)

/-- The slug after `n` turns of the loop of `justify_slug`, or at the end of the run
when that comes before: at the exit of the loop or at the overflow of `i`. -/
def justify_steps (width : Nat) (rtl : Bool) : Nat → Str → Int → Nat → Str
  | 0, slug, _, _ => slug
  | n + 1, slug, padding, i =>
    if padding > 0 then
      if i < INT_MAX then
        justify_steps width rtl n
          (replace slug (justify_replacements (i % 4)).1 (justify_replacements (i % 4)).2
            (uchar_of_int padding) rtl)
          (padding_of width (replace slug (justify_replacements (i % 4)).1
            (justify_replacements (i % 4)).2 (uchar_of_int padding) rtl).length) (i + 1)
      else
        replace slug (justify_replacements (i % 4)).1 (justify_replacements (i % 4)).2
          (uchar_of_int padding) rtl
    else slug

/-- The table of rules of the justifier, in the order of the specification. -/
def spec_rules : List (Str × Str) :=
  [(['.', ' '], ['.', ' ', ' ']), ([';', ' '], [';', ' ', ' ']),
    ([',', ' '], [',', ' ', ' ']), ([' '], [' ', ' '])]

/-- The justifier in the words of the specification: the slug after `n` turns that
start at the rule cursor `i`. A turn is taken while the slug is shorter than the
width; it applies rule `i mod 4` of the table with the padding as budget, in the
direction `fromEnd`, and moves the cursor by one. -/
def justify_spec (width : Nat) (fromEnd : Bool) : Nat → Str → Nat → Str
  | 0, slug, _ => slug
  | n + 1, slug, i =>
    if slug.length < width then
      justify_spec width fromEnd n
        (replace slug (spec_rules.getD (i % 4) ([], [])).1 (spec_rules.getD (i % 4) ([], [])).2
          (width - slug.length) fromEnd) (i + 1)
    else slug

/-! ## The tokenizer -/

theorem find_if_skip (p : Char → Bool) (a b : Str) (i : Nat) (h : ∀ c ∈ a, p c = false) :
    find_if p (a ++ b) i = find_if p b (i + a.length) := by
  induction a generalizing i with
  | nil => simp
  | cons c a ih =>
    have hc : p c = false := h c (by simp)
    have ha : ∀ c ∈ a, p c = false := fun c hc => h c (by simp [hc])
    simp [find_if, hc, ih (i + 1) ha]
    congr 1; omega

theorem find_if_none (p : Char → Bool) (a : Str) (i : Nat) (h : ∀ c ∈ a, p c = false) :
    find_if p a i = none := by
  have := find_if_skip p a [] i h
  simpa [find_if] using this

theorem Tokens.inv {delims : Str} {s : Str} {ts : List Str} (h : Tokens delims s ts) :
    (ts = [] ∧ ∀ c ∈ s, c ∈ delims) ∨
    ∃ d t rest ts1, s = d ++ (t ++ rest) ∧ ts = t :: ts1 ∧ (∀ c ∈ d, c ∈ delims) ∧ t ≠ [] ∧
      (∀ c ∈ t, c ∉ delims) ∧ (rest = [] ∨ ∃ c r, rest = c :: r ∧ c ∈ delims) ∧
      Tokens delims rest ts1 := by
  cases h with
  | nil _ hs => exact Or.inl ⟨rfl, hs⟩
  | cons d t rest ts hd ht hnd hr hrest =>
    exact Or.inr ⟨d, t, rest, ts, rfl, rfl, hd, ht, hnd, hr, hrest⟩

theorem Tokens.nil_eq {delims : Str} {ts : List Str} (h : Tokens delims [] ts) : ts = [] := by
  rcases h.inv with ⟨h, _⟩ | ⟨d, t, rest, ts1, hs, _, _, ht, _⟩
  · exact h
  · have : t = [] := by
      have := congrArg List.length hs
      simp at this
      exact List.length_eq_zero.1 (by omega)
    exact absurd this ht

theorem Tokens.cons_delim {delims : Str} {s : Str} {ts : List Str} (c : Char)
    (hc : c ∈ delims) (h : Tokens delims s ts) : Tokens delims (c :: s) ts := by
  cases h with
  | nil _ hs =>
    refine Tokens.nil _ ?_
    intro x hx
    rcases List.mem_cons.1 hx with rfl | hx
    · exact hc
    · exact hs x hx
  | cons d t rest ts hd ht hnd hr hrest =>
    have := Tokens.cons (c :: d) t rest ts (by
      intro x hx
      rcases List.mem_cons.1 hx with rfl | hx
      · exact hc
      · exact hd x hx) ht hnd hr hrest
    simpa using this

theorem split_words_tokens (delims : Str) : ∀ s : Str, Tokens delims s (split_words delims s)
  | [] => Tokens.nil _ (by simp)
  | c :: cs => by
    have ih := split_words_tokens delims cs
    by_cases hc : c ∈ delims
    · have : split_words delims (c :: cs) = split_words delims cs := by
        simp [split_words, hc]
      rw [this]
      exact Tokens.cons_delim c hc ih
    · cases cs with
      | nil =>
        have : split_words delims [c] = [[c]] := by simp [split_words, hc]
        rw [this]
        have := @Tokens.cons delims [] [c] [] [] (by simp) (by simp)
          (by simpa using hc) (Or.inl rfl) (Tokens.nil _ (by simp))
        simpa using this
      | cons d r =>
        by_cases hd : d ∈ delims
        · have : split_words delims (c :: d :: r) = [c] :: split_words delims (d :: r) := by
            simp [split_words, hc, hd]
          rw [this]
          have := @Tokens.cons delims [] [c] (d :: r) _ (by simp) (by simp)
            (by simpa using hc) (Or.inr ⟨d, r, rfl, hd⟩) ih
          simpa using this
        · rcases ih.inv with ⟨_, hall⟩ | ⟨d1, t, rest, ts, heq, hsw, hd1, ht, hnd, hr, hrest⟩
          · exact absurd (hall d (by simp)) hd
          · have hd1nil : d1 = [] := by
              cases d1 with
              | nil => rfl
              | cons x d1 =>
                simp at heq
                exact absurd (heq.1 ▸ hd1 x (by simp)) hd
            subst hd1nil
            have : split_words delims (c :: d :: r) = (c :: t) :: ts := by
              have hc1 : delims.contains c = false := by simpa using hc
              have hd1 : delims.contains d = false := by simpa using hd
              rw [split_words]
              simp only [hc1, hd1, hsw, Bool.false_eq_true, if_false]
            rw [this]
            have := @Tokens.cons delims [] (c :: t) rest ts (by simp) (by simp)
              (by
                intro x hx
                rcases List.mem_cons.1 hx with rfl | hx
                · exact hc
                · exact hnd x hx) hr hrest
            simp at heq
            simpa [heq] using this

theorem Tokens.length_le {delims : Str} {s : Str} {ts : List Str} (h : Tokens delims s ts) :
    ts.length ≤ s.length := by
  induction h with
  | nil _ _ => simp
  | cons d t rest ts hd ht hnd hr hrest ih =>
    have : 0 < t.length := List.length_pos.2 ht
    simp
    omega

theorem tokenize_loop_tokens (str delims : Str) {s : Str} {ts : List Str}
    (h : Tokens delims s ts) :
    ∀ (fuel p : Nat) (tokens : List Str), str.drop p = s → p ≤ str.length → ts.length < fuel →
      tokenize_loop str delims fuel (find_first_not_of str delims (some p))
        (find_first_of str delims (find_first_not_of str delims (some p))) tokens
        = some (tokens ++ ts) := by
  induction h with
  | nil s hs =>
    intro fuel p tokens hdrop hp hfuel
    have h1 : find_first_not_of str delims (some p) = none := by
      simp only [find_first_not_of, hdrop]
      exact find_if_none _ _ _ (by intro c hc; simpa using hs c hc)
    obtain ⟨fuel, rfl⟩ : ∃ k, fuel = k + 1 := ⟨fuel - 1, by omega⟩
    simp [h1, find_first_of, tokenize_loop]
  | cons d t rest ts hd ht hnd hr hrest ih =>
    intro fuel p tokens hdrop hp hfuel
    obtain ⟨fuel, rfl⟩ : ∃ k, fuel = k + 1 := ⟨fuel - 1, by omega⟩
    obtain ⟨c, t1, rfl⟩ : ∃ c t1, t = c :: t1 := by
      cases t with
      | nil => exact absurd rfl ht
      | cons c t1 => exact ⟨c, t1, rfl⟩
    have hlen : p + (d ++ (c :: t1 ++ rest)).length = str.length := by
      rw [← hdrop, List.length_drop]; omega
    have h1 : find_first_not_of str delims (some p) = some (p + d.length) := by
      simp only [find_first_not_of, hdrop]
      rw [find_if_skip _ _ _ _ (by intro x hx; simpa using hd x hx)]
      have : c ∉ delims := hnd c (by simp)
      simp [find_if, this]
    have hdrop1 : str.drop (p + d.length) = (c :: t1) ++ rest := by
      rw [← List.drop_drop, hdrop, List.drop_left]
    have hdrop2 : str.drop (p + d.length + (c :: t1).length) = rest := by
      rw [← List.drop_drop, hdrop1, List.drop_left]
    have h2 : find_first_of str delims (some (p + d.length)) =
        find_if (fun c => delims.contains c) rest (p + d.length + (c :: t1).length) := by
      simp only [find_first_of, hdrop1]
      rw [find_if_skip _ _ _ _ (by intro x hx; simpa using hnd x hx)]
    rw [h1, h2]
    rcases hr with rfl | ⟨e, r, rfl, he⟩
    · have hts : ts = [] := hrest.nil_eq
      subst hts
      obtain ⟨fuel, rfl⟩ : ∃ k, fuel = k + 1 := ⟨fuel - 1, by simp at hfuel; omega⟩
      have hsub : substr str (p + d.length) none = c :: t1 := by
        simp [substr, hdrop1]
      simp [find_if, tokenize_loop, find_first_not_of, find_first_of, hsub]
    · have h3 : find_if (fun c => delims.contains c) (e :: r) (p + d.length + (c :: t1).length)
          = some (p + d.length + (c :: t1).length) := by
        simp [find_if, he]
      have hsub : substr str (p + d.length) (some (p + d.length + (c :: t1).length))
          = c :: t1 := by
        simp only [substr, hdrop1]
        rw [show p + d.length + (c :: t1).length - (p + d.length) = (c :: t1).length by omega,
          List.take_left]
      rw [h3, tokenize_loop]
      simp only [ne_eq, reduceCtorEq, not_false_eq_true, or_self, if_true, hsub]
      have := ih fuel (p + d.length + (c :: t1).length) (tokens ++ [c :: t1]) hdrop2
        (by simp at hlen ⊢; omega) (by simp at hfuel; omega)
      rw [this]
      simp

/-- The tokenizer computes the words of the string, with any fuel above its length. -/
theorem tokenize_eq (fuel : Nat) (str : Str) (tokens : List Str) (delims : Str)
    (hfuel : str.length < fuel) :
    tokenize fuel str tokens delims = some (tokens ++ split_words delims str) := by
  have h := split_words_tokens delims str
  have := tokenize_loop_tokens str delims h fuel 0 tokens (by simp) (by simp)
    (lt_of_le_of_lt h.length_le hfuel)
  simpa [tokenize] using this

theorem Tokens.weave_eq {delims : Str} {s : Str} {ts : List Str} (h : Tokens delims s ts) :
    ∃ seps : List Str, seps.length = ts.length + 1 ∧ (∀ sep ∈ seps, ∀ c ∈ sep, c ∈ delims) ∧
      weave seps ts = s := by
  induction h with
  | nil s hs => exact ⟨[s], rfl, by simpa using hs, rfl⟩
  | cons d t rest ts hd ht hnd hr hrest ih =>
    obtain ⟨seps, hlen, hseps, hw⟩ := ih
    refine ⟨d :: seps, by simp [hlen], ?_, by simp [weave, hw]⟩
    intro sep hsep
    rcases List.mem_cons.1 hsep with rfl | hsep
    · exact hd
    · exact hseps sep hsep

theorem Tokens.mem {delims : Str} {s : Str} {ts : List Str} (h : Tokens delims s ts) :
    ∀ t ∈ ts, t ≠ [] ∧ t <:+: s ∧ ∀ c ∈ t, c ∉ delims := by
  induction h with
  | nil s hs => simp
  | cons d t rest ts hd ht hnd hr hrest ih =>
    intro u hu
    rcases List.mem_cons.1 hu with rfl | hu
    · exact ⟨ht, ⟨d, rest, by simp⟩, hnd⟩
    · obtain ⟨h1, ⟨a, b, hab⟩, h3⟩ := ih u hu
      exact ⟨h1, ⟨d ++ t ++ a, b, by simp [← hab]⟩, h3⟩

theorem Tokens.nil_iff {delims : Str} {s : Str} {ts : List Str} (h : Tokens delims s ts) :
    ts = [] ↔ ∀ c ∈ s, c ∈ delims := by
  rcases h.inv with ⟨h1, h2⟩ | ⟨d, t, rest, ts1, hs, hts, _, ht, hnd, _⟩
  · exact ⟨fun _ => h2, fun _ => h1⟩
  · subst hs hts
    simp only [reduceCtorEq, false_iff]
    intro hall
    cases t with
    | nil => exact ht rfl
    | cons c t => exact hnd c (by simp) (hall c (by simp))

/-- The words of a string are not empty and hold no delimiter. -/
theorem split_words_mem (delims s : Str) :
    ∀ t ∈ split_words delims s, t ≠ [] ∧ t <:+: s ∧ ∀ c ∈ t, c ∉ delims :=
  (split_words_tokens delims s).mem

/-! ## The slug builder -/

theorem unwords_nil : unwords [] = [] := rfl

theorem unwords_singleton (w : Str) : unwords [w] = w := by simp [unwords, List.intercalate]

theorem unwords_cons_cons (w v : Str) (g : List Str) :
    unwords (w :: v :: g) = w ++ ' ' :: unwords (v :: g) := by
  simp [unwords, List.intercalate]

theorem trail_append (g : List Str) (w : Str) : trail (g ++ [w]) = trail g ++ (w ++ [' ']) := by
  induction g with
  | nil => simp [trail]
  | cons v g ih => simp [trail, ih]

theorem trail_eq (w : Str) (g : List Str) : trail (w :: g) = unwords (w :: g) ++ [' '] := by
  induction g generalizing w with
  | nil => simp [trail, unwords_singleton]
  | cons v g ih => rw [unwords_cons_cons, trail, ih v]; simp

theorem drop_separator_trail (g : List Str) : drop_separator (trail g) = unwords g := by
  cases g with
  | nil => rfl
  | cons w g =>
    rw [trail_eq]
    simp [drop_separator]

theorem length_unwords_le (g : List Str) : (unwords g).length ≤ (trail g).length := by
  cases g with
  | nil => simp [unwords_nil]
  | cons w g => rw [trail_eq]; simp

/-- The first loop of `align_para` closes the groups of `pack` in turn. -/
theorem align_loop_pack (fuel width : Nat) (mode : Alignment) :
    ∀ (ws : List Str) (slugs : List Str) (g : List Str),
      align_loop fuel width mode ws slugs (trail g) =
        (close_all fuel width mode (pack width ws g).1 slugs).map
          (fun sl => (sl, trail (pack width ws g).2))
  | [], slugs, g => by simp [align_loop, pack, close_all]
  | w :: ws, slugs, g => by
    by_cases h : (trail g).length + 1 + w.length ≤ width
    · rw [align_loop, if_pos h, ← trail_append, align_loop_pack fuel width mode ws slugs (g ++ [w])]
      simp [pack, h]
    · rw [align_loop, if_neg h]
      simp only [drop_separator_trail]
      have hp : pack width (w :: ws) g = (g :: (pack width ws [w]).1, (pack width ws [w]).2) := by
        simp [pack, h]
      rw [hp, close_all]
      have ht : w ++ [' '] = trail [w] := by simp [trail]
      cases mode <;> simp only [close_slug]
      · rw [ht, align_loop_pack fuel width _ ws _ [w]]
      · rw [ht, align_loop_pack fuel width _ ws _ [w]]
      · rw [ht, align_loop_pack fuel width _ ws _ [w]]
      · cases hj : justify_slug fuel (unwords g) width (slugs.length % 2 != 0) with
        | none => simp
        | some s => simp only []; rw [ht, align_loop_pack fuel width _ ws _ [w]]

/-- The slugs of `align_para`, from the groups of `pack`. -/
theorem align_slugs_pack (fuel width : Nat) (mode : Alignment) (trimmed : Str)
    (hfuel : trimmed.length < fuel) :
    align_slugs fuel trimmed width mode =
      (close_all fuel width mode (pack width (split_words [' '] trimmed) []).1 []).map
        (fun sl => sl ++ [close_final width mode
          (unwords (pack width (split_words [' '] trimmed) []).2)]) := by
  have hl := align_loop_pack fuel width mode (split_words [' '] trimmed) [] []
  simp only [trail] at hl
  simp only [align_slugs, tokenize_eq fuel trimmed [] [' '] hfuel, List.nil_append, hl]
  cases hc : close_all fuel width mode (pack width (split_words [' '] trimmed) []).1 [] with
  | none => simp
  | some sl =>
    simp only [Option.map_some', drop_separator_trail]
    cases mode <;> simp [close_final]

theorem close_all_total (fuel width : Nat) (mode : Alignment) (hm : mode ≠ .align_justify) :
    ∀ (gs : List (List Str)) (slugs : List Str),
      close_all fuel width mode gs slugs =
        some (slugs ++ gs.map (fun g => close_final width mode (unwords g)))
  | [], slugs => by simp [close_all]
  | g :: gs, slugs => by
    cases mode with
    | align_justify => exact absurd rfl hm
    | align_left =>
      simp [close_all, close_slug, close_all_total fuel width .align_left hm gs, close_final]
    | align_right =>
      simp [close_all, close_slug, close_all_total fuel width .align_right hm gs, close_final]
    | align_center =>
      simp [close_all, close_slug, close_all_total fuel width .align_center hm gs, close_final]

/-- The groups of a line: those that `pack` closes and the one it ends with. -/
theorem align_slugs_total (fuel width : Nat) (mode : Alignment) (trimmed : Str)
    (hfuel : trimmed.length < fuel) (hm : mode ≠ .align_justify) :
    align_slugs fuel trimmed width mode =
      some ((groups width (split_words [' '] trimmed)).map
        (fun g => close_final width mode (unwords g))) := by
  rw [align_slugs_pack fuel width mode trimmed hfuel, close_all_total fuel width mode hm]
  simp [groups]

theorem pack_flatten (width : Nat) :
    ∀ (ws g : List Str), (pack width ws g).1.flatten ++ (pack width ws g).2 = g ++ ws
  | [], g => by simp [pack]
  | w :: ws, g => by
    by_cases h : (trail g).length + 1 + w.length ≤ width
    · have := pack_flatten width ws (g ++ [w])
      simpa [pack, h] using this
    · have := pack_flatten width ws [w]
      simp only [pack, h, if_false, List.flatten_cons, List.append_assoc, this]
      simp

theorem pack_bound (width : Nat) :
    ∀ (ws g : List Str), ((trail g).length ≤ width ∨ ∃ w, g = [w]) →
      ∀ h ∈ (pack width ws g).1 ++ [(pack width ws g).2],
        (trail h).length ≤ width ∨ ∃ w, h = [w]
  | [], g, hg => by simpa [pack] using hg
  | w :: ws, g, hg => by
    by_cases h : (trail g).length + 1 + w.length ≤ width
    · have := pack_bound width ws (g ++ [w]) (Or.inl (by rw [trail_append]; simp; omega))
      simpa [pack, h] using this
    · have := pack_bound width ws [w] (Or.inr ⟨w, rfl⟩)
      intro k hk
      simp only [pack, h, if_false, List.cons_append, List.mem_cons] at hk
      rcases hk with rfl | hk
      · exact hg
      · exact this k hk

theorem groups_flatten (width : Nat) (words : List Str) :
    (groups width words).flatten = words := by
  have := pack_flatten width words []
  simpa [groups] using this

theorem groups_bound (width : Nat) (words : List Str) :
    ∀ h ∈ groups width words, (trail h).length ≤ width ∨ ∃ w, h = [w] :=
  pack_bound width words [] (Or.inl (by simp [trail]))

theorem groups_ne_nil (width : Nat) (words : List Str) : groups width words ≠ [] := by
  simp [groups]

theorem mem_of_mem_groups {width : Nat} {words : List Str} {g : List Str} {w : Str}
    (hg : g ∈ groups width words) (hw : w ∈ g) : w ∈ words := by
  rw [← groups_flatten width words]
  exact List.mem_flatten.2 ⟨g, hg, hw⟩

/-! ## Trimming, joining and lines -/

theorem trim_copy_sublist (para : Str) : List.Sublist (trim_copy para) para := by
  unfold trim_copy
  refine (List.dropWhile_sublist _).trans ?_
  have : List.Sublist (para.reverse.dropWhile is_space) para.reverse :=
    List.dropWhile_sublist _
  simpa using List.reverse_sublist.2 this

theorem mem_unwords {c : Char} : ∀ {g : List Str}, c ∈ unwords g → c = ' ' ∨ ∃ w ∈ g, c ∈ w
  | [], h => by simp [unwords_nil] at h
  | [w], h => by rw [unwords_singleton] at h; exact Or.inr ⟨w, by simp, h⟩
  | w :: v :: g, h => by
    rw [unwords_cons_cons] at h
    rcases List.mem_append.1 h with h | h
    · exact Or.inr ⟨w, by simp, h⟩
    · rcases List.mem_cons.1 h with h | h
      · exact Or.inl h
      · rcases mem_unwords h with h | ⟨u, hu, hc⟩
        · exact Or.inl h
        · exact Or.inr ⟨u, List.mem_cons_of_mem _ hu, hc⟩

theorem mem_close_final {c : Char} {width : Nat} {mode : Alignment} {slug : Str}
    (h : c ∈ close_final width mode slug) : c = ' ' ∨ c ∈ slug := by
  cases mode <;> simp only [close_final, right_slug, center_slug, List.mem_append,
    List.mem_replicate] at h
  · exact Or.inr h
  · rcases h with h | h
    · exact Or.inl h.2
    · exact Or.inr h
  · rcases h with (h | h) | h
    · exact Or.inl h.2
    · exact Or.inr h
    · exact Or.inl h.2
  · exact Or.inr h

theorem join_slugs_eq_intercalate : ∀ slugs : List Str,
    join_slugs slugs = List.intercalate ['\n'] slugs
  | [] => by simp [join_slugs, List.intercalate]
  | [s] => by simp [join_slugs, List.intercalate]
  | s :: t :: slugs => by
    have := join_slugs_eq_intercalate (t :: slugs)
    rw [join_slugs, this]
    simp [List.intercalate]

theorem lines_of_single : ∀ s : Str, '\n' ∉ s → lines_of s = [s]
  | [], _ => rfl
  | c :: s, h => by
    have hc : c ≠ '\n' := fun e => h (by simp [e])
    have hs : '\n' ∉ s := fun e => h (by simp [e])
    simp [lines_of, hc, lines_of_single s hs]

theorem lines_of_append : ∀ (s t : Str), '\n' ∉ s → lines_of (s ++ '\n' :: t) = s :: lines_of t
  | [], t, _ => by simp [lines_of]
  | c :: s, t, h => by
    have hc : c ≠ '\n' := fun e => h (by simp [e])
    have hs : '\n' ∉ s := fun e => h (by simp [e])
    simp [lines_of, hc, lines_of_append s t hs]

/-- Without a line break inside a slug, the lines of the joined slugs are the slugs. -/
theorem lines_of_join_slugs : ∀ slugs : List Str, slugs ≠ [] → (∀ s ∈ slugs, '\n' ∉ s) →
    lines_of (join_slugs slugs) = slugs
  | [], h, _ => absurd rfl h
  | [s], _, h => by simpa [join_slugs] using lines_of_single s (h s (by simp))
  | s :: t :: slugs, _, h => by
    rw [join_slugs, lines_of_append _ _ (h s (by simp)),
      lines_of_join_slugs (t :: slugs) (by simp) (fun u hu => h u (List.mem_cons_of_mem _ hu))]

/-- In the three modes other than justification, `align_para` returns the joined slugs of
the groups, with any fuel above the length of the line. -/
theorem align_para_total (fuel : Nat) (line : Str) (width : Nat) (mode : Alignment)
    (hfuel : line.length < fuel) (hp : pass_through (trim_copy line) = false)
    (hm : mode ≠ .align_justify) :
    align_para fuel line width mode =
      some (join_slugs ((groups width (split_words [' '] (trim_copy line))).map
        (fun g => close_final width mode (unwords g)))) := by
  have hlen : (trim_copy line).length < fuel :=
    lt_of_le_of_lt (trim_copy_sublist line).length_le hfuel
  simp [align_para, hp, align_slugs_total fuel width mode _ hlen hm]

theorem align_para_eq (fuel : Nat) (line : Str) (width : Nat) (mode : Alignment)
    (hp : pass_through (trim_copy line) = false) :
    align_para fuel line width mode =
      (align_slugs fuel (trim_copy line) width mode).map join_slugs := by
  simp only [align_para, hp, Bool.false_eq_true, if_false]
  cases align_slugs fuel (trim_copy line) width mode <;> rfl

/-- A slug of a line without a line break has no line break. -/
theorem slug_no_newline (line : Str) (width : Nat) (mode : Alignment) (hnl : '\n' ∉ line) :
    ∀ s ∈ (groups width (split_words [' '] (trim_copy line))).map
      (fun g => close_final width mode (unwords g)), '\n' ∉ s := by
  intro s hs hmem
  obtain ⟨g, hg, rfl⟩ := List.mem_map.1 hs
  rcases mem_close_final hmem with h | h
  · exact absurd h (by decide)
  · rcases mem_unwords h with h | ⟨w, hw, hc⟩
    · exact absurd h (by decide)
    · have hw1 := mem_of_mem_groups hg hw
      obtain ⟨_, hsub, _⟩ := split_words_mem [' '] (trim_copy line) w hw1
      exact hnl ((trim_copy_sublist line).subset (hsub.subset hc))

/-! ## Padding -/

/-- For a slug that is not longer than the width, the padding is the difference. -/
theorem padding_of_le {width len : Nat} (hw : width ≤ 255) (h : len ≤ width) :
    padding_of width len = ((width - len : Nat) : Int) := by
  unfold padding_of int_of_size_t size_t_sub SIZE_MOD
  split <;> omega

theorem length_right_slug {slug : Str} {width : Nat} (hw : width ≤ 255)
    (h : slug.length ≤ width) : (right_slug slug width).length = width := by
  simp [right_slug, padding_of_le hw h]
  omega

theorem center_slug_le {slug : Str} {width : Nat} (hw : width ≤ 255)
    (h : slug.length ≤ width) :
    center_slug slug width =
      List.replicate ((width - slug.length) / 2) ' ' ++ slug ++
        List.replicate ((width - slug.length) - (width - slug.length) / 2) ' ' := by
  have h2 : Int.tdiv ((width - slug.length : Nat) : Int) 2
      = (((width - slug.length) / 2 : Nat) : Int) := (Int.ofNat_tdiv _ 2).symm
  have h3 : (((width - slug.length : Nat) : Int) - (((width - slug.length) / 2 : Nat) : Int)).toNat
      = (width - slug.length) - (width - slug.length) / 2 := by omega
  simp only [center_slug, padding_of_le hw h, h2, h3, Int.toNat_ofNat]

theorem length_center_slug {slug : Str} {width : Nat} (hw : width ≤ 255)
    (h : slug.length ≤ width) : (center_slug slug width).length = width := by
  rw [center_slug_le hw h]
  simp
  omega

/-! ## Fuel of the tokenizer -/

theorem tokenize_loop_succ (str delims : Str) :
    ∀ (fuel : Nat) (lastPos pos : Option Nat) (tokens r : List Str),
      tokenize_loop str delims fuel lastPos pos tokens = some r →
      tokenize_loop str delims (fuel + 1) lastPos pos tokens = some r
  | 0, _, _, _, _, h => by simp [tokenize_loop] at h
  | fuel + 1, lastPos, pos, tokens, r, h => by
    cases lastPos with
    | none =>
      rw [tokenize_loop] at h
      rw [tokenize_loop]
      exact h
    | some lp =>
      rw [tokenize_loop] at h
      rw [tokenize_loop]
      simp only [ne_eq, reduceCtorEq, not_false_eq_true, or_true, if_true] at h ⊢
      exact tokenize_loop_succ str delims fuel _ _ _ r h

theorem tokenize_loop_add (str delims : Str) (fuel : Nat) (lastPos pos : Option Nat)
    (tokens r : List Str) (h : tokenize_loop str delims fuel lastPos pos tokens = some r) :
    ∀ k, tokenize_loop str delims (fuel + k) lastPos pos tokens = some r
  | 0 => h
  | k + 1 => tokenize_loop_succ str delims (fuel + k) _ _ _ r
      (tokenize_loop_add str delims fuel lastPos pos tokens r h k)

/-- Whatever the fuel, a result of the tokenizer is the words of the string. -/
theorem tokenize_some_eq {fuel : Nat} {str : Str} {tokens : List Str} {delims : Str}
    {r : List Str} (h : tokenize fuel str tokens delims = some r) :
    r = tokens ++ split_words delims str := by
  have h1 := tokenize_loop_add str delims fuel _ _ tokens r h (str.length + 1)
  have h2 := tokenize_eq (fuel + (str.length + 1)) str tokens delims (by omega)
  unfold tokenize at h2
  rw [h1] at h2
  exact Option.some.inj h2

/-- The slugs of `align_para` from the groups of `pack`, when the tokenizer has returned. -/
theorem align_slugs_of_tokenize (fuel width : Nat) (mode : Alignment) (trimmed : Str)
    (words : List Str) (h : tokenize fuel trimmed [] [' '] = some words) :
    words = split_words [' '] trimmed ∧
    align_slugs fuel trimmed width mode =
      (close_all fuel width mode (pack width words []).1 []).map
        (fun sl => sl ++ [close_final width mode (unwords (pack width words []).2)]) := by
  refine ⟨by simpa using tokenize_some_eq h, ?_⟩
  have hl := align_loop_pack fuel width mode words [] []
  simp only [trail] at hl
  simp only [align_slugs, h, hl]
  cases hc : close_all fuel width mode (pack width words []).1 [] with
  | none => simp
  | some sl =>
    simp only [Option.map_some', drop_separator_trail]
    cases mode <;> simp [close_final]

/-! ## The replacer and the justifier -/

theorem find_sub_bound (find : Str) : ∀ (s : Str) (i p : Nat), find_sub find s i = some p →
    i ≤ p ∧ p + find.length ≤ i + s.length
  | [], i, p, h => by
    simp only [find_sub] at h
    split at h
    · rename_i hf
      simp at h
      simp [hf, h]
    · simp at h
  | c :: cs, i, p, h => by
    simp only [find_sub] at h
    split at h
    · rename_i hf
      have := ( List.isPrefixOf_iff_prefix.1 hf).length_le
      simp at h
      subst h
      exact ⟨le_refl _, by omega⟩
    · have := find_sub_bound find cs (i + 1) p h
      simp
      omega

theorem str_find_bound {out find : Str} {pos p : Nat} (h : str_find out find pos = some p) :
    p + find.length ≤ out.length := by
  unfold str_find at h
  split at h
  · have := find_sub_bound find _ _ _ h
    simp at this
    omega
  · simp at h

/-- Every replacement adds the difference of the lengths, and there are at most `k`
of them. -/
theorem length_replace_loop_le (find repl : Str) (d : Nat) (hd : repl.length = find.length + d) :
    ∀ (k : Nat) (out : Str) (pos : Nat),
      (replace_loop find repl k out pos).length ≤ out.length + k * d
  | 0, out, pos => by simp [replace_loop]
  | k + 1, out, pos => by
    rw [replace_loop]
    cases hf : str_find out find pos with
    | none => simp
    | some p =>
      have hb := str_find_bound hf
      have := length_replace_loop_le find repl d hd k
        (out.take p ++ repl ++ out.drop (p + find.length)) (p + repl.length)
      simp only [List.length_append, List.length_take, List.length_drop] at this
      simp only []
      have hmin : min p out.length = p := by omega
      rw [hmin] at this
      have e : (k + 1) * d = k * d + d := by ring
      omega

theorem length_replace_le (input find repl : Str) (d : Nat)
    (hd : repl.length = find.length + d) (k : Nat) (rtl : Bool) :
    (replace input find repl k rtl).length ≤ input.length + k * d := by
  unfold replace
  cases rtl
  · simp only [Bool.false_eq_true, if_false]
    split
    · exact length_replace_loop_le find repl d hd k input 0
    · omega
  · simp only [if_true, List.length_reverse]
    split
    · simpa using length_replace_loop_le find.reverse repl.reverse d (by simpa using hd) k
        input.reverse 0
    · simp

theorem justify_replacements_length (r : Nat) :
    (justify_replacements r).2.length = (justify_replacements r).1.length + 1 := by
  unfold justify_replacements
  split <;> rfl

theorem justify_loop_zero (width : Nat) (rtl : Bool) (slug : Str) (padding : Int) (i : Nat) :
    justify_loop width rtl 0 slug padding i = .out_of_fuel := rfl

/-- One turn of the loop of `justify_slug`. -/
theorem justify_loop_succ (width : Nat) (rtl : Bool) (fuel : Nat) (slug : Str) (padding : Int)
    (i : Nat) :
    justify_loop width rtl (fuel + 1) slug padding i =
      if padding > 0 then
        if i < INT_MAX then
          justify_loop width rtl fuel
            (replace slug (justify_replacements (i % 4)).1 (justify_replacements (i % 4)).2
              (uchar_of_int padding) rtl)
            (padding_of width (replace slug (justify_replacements (i % 4)).1
              (justify_replacements (i % 4)).2 (uchar_of_int padding) rtl).length) (i + 1)
        else .undefined
      else .returned slug := rfl

/-- The result of `justify_slug` is the slug that its loop returns. -/
theorem justify_slug_eq_some {fuel : Nat} {slug : Str} {width : Nat} {rtl : Bool} {out : Str} :
    justify_slug fuel slug width rtl = some out ↔
      justify_loop width rtl fuel slug (padding_of width slug.length) 0 = .returned out := by
  simp only [justify_slug]
  cases justify_loop width rtl fuel slug (padding_of width slug.length) 0 <;> simp

/-- When the loop of `justify_slug` returns for a slug that is not longer than the
width, the result is exactly as long as the width. -/
theorem length_justify_loop (width : Nat) (rtl : Bool) (hw : width ≤ 255) :
    ∀ (fuel : Nat) (slug : Str) (i : Nat) (out : Str), slug.length ≤ width →
      justify_loop width rtl fuel slug (padding_of width slug.length) i = .returned out →
      out.length = width
  | 0, _, _, _, _, h => by simp [justify_loop_zero] at h
  | fuel + 1, slug, i, out, hs, h => by
    rw [justify_loop_succ, padding_of_le hw hs] at h
    split at h
    · rename_i hpos
      have hu : uchar_of_int ((width - slug.length : Nat) : Int) = width - slug.length := by
        unfold uchar_of_int; omega
      simp only [hu] at h
      have hle := length_replace_le slug (justify_replacements (i % 4)).1
        (justify_replacements (i % 4)).2 1 (justify_replacements_length _)
        (width - slug.length) rtl
      split at h
      · exact length_justify_loop width rtl hw fuel _ (i + 1) out (by omega) h
      · exact absurd h (by simp)
    · rename_i hpos
      simp at h
      subst h
      omega

theorem length_justify_slug {fuel : Nat} {slug : Str} {width : Nat} {rtl : Bool} {out : Str}
    (hw : width ≤ 255) (hs : slug.length ≤ width)
    (h : justify_slug fuel slug width rtl = some out) : out.length = width :=
  length_justify_loop width rtl hw fuel slug 0 out hs (justify_slug_eq_some.1 h)

theorem find_sub_none (find : Str) (x : Char) (hx : x ∈ find) :
    ∀ (s : Str) (i : Nat), x ∉ s → find_sub find s i = none
  | [], i, _ => by
    have : find ≠ [] := List.ne_nil_of_mem hx
    simp [find_sub, this]
  | c :: cs, i, h => by
    have hnp : find.isPrefixOf (c :: cs) = false := by
      cases hb : find.isPrefixOf (c :: cs) with
      | false => rfl
      | true => exact absurd (( List.isPrefixOf_iff_prefix.1 hb).subset hx) h
    rw [find_sub, hnp]
    simp only [Bool.false_eq_true, if_false]
    exact find_sub_none find x hx cs (i + 1) (fun hm => h (List.mem_cons_of_mem _ hm))

theorem replace_loop_none (find repl : Str) (x : Char) (hx : x ∈ find) (k : Nat) (out : Str)
    (pos : Nat) (h : x ∉ out) : replace_loop find repl k out pos = out := by
  cases k with
  | zero => rfl
  | succ k =>
    have : str_find out find pos = none := by
      unfold str_find
      split
      · exact find_sub_none find x hx _ _ (fun hm => h (List.mem_of_mem_drop hm))
      · rfl
    rw [replace_loop, this]

/-- A pattern with a character that is absent from the input is not replaced. -/
theorem replace_none (input find repl : Str) (x : Char) (hx : x ∈ find) (k : Nat) (rtl : Bool)
    (h : x ∉ input) : replace input find repl k rtl = input := by
  unfold replace
  cases rtl
  · simp only [Bool.false_eq_true, if_false]
    split
    · exact replace_loop_none find repl x hx k input 0 h
    · rfl
  · simp only [if_true]
    split
    · rw [replace_loop_none find.reverse repl.reverse x (by simpa using hx) k input.reverse 0
        (by simpa using h)]
      simp
    · simp

theorem space_mem_justify_replacements (r : Nat) : ' ' ∈ (justify_replacements r).1 := by
  unfold justify_replacements
  split <;> simp

/-- On a slug without a space the loop of `justify_slug`, once entered, goes on with
the same slug until the fuel runs out or the counter `i` overflows. -/
theorem justify_loop_no_space (width : Nat) (rtl : Bool) (slug : Str) (h : ' ' ∉ slug)
    (hpos : padding_of width slug.length > 0) :
    ∀ (fuel i : Nat), i ≤ INT_MAX →
      justify_loop width rtl fuel slug (padding_of width slug.length) i =
        if i + fuel ≤ INT_MAX then .out_of_fuel else .undefined
  | 0, i, hi => by rw [justify_loop_zero, if_pos (by omega)]
  | fuel + 1, i, hi => by
    rw [justify_loop_succ, if_pos hpos]
    simp only [replace_none slug _ _ ' ' (space_mem_justify_replacements (i % 4)) _ rtl h]
    by_cases hlt : i < INT_MAX
    · rw [if_pos hlt, justify_loop_no_space width rtl slug h hpos fuel (i + 1) (by omega)]
      by_cases hle : i + 1 + fuel ≤ INT_MAX
      · rw [if_pos hle, if_pos (by omega)]
      · rw [if_neg hle, if_neg (by omega)]
    · rw [if_neg hlt, if_neg (by omega)]

/-- On a slug without a space that needs padding `justify_slug` returns nothing. -/
theorem justify_slug_none (width : Nat) (rtl : Bool) (slug : Str) (h : ' ' ∉ slug)
    (hpos : padding_of width slug.length > 0) (fuel : Nat) :
    justify_slug fuel slug width rtl = none := by
  simp only [justify_slug]
  rw [justify_loop_no_space width rtl slug h hpos fuel 0 (Nat.zero_le _)]
  by_cases hle : 0 + fuel ≤ INT_MAX
  · rw [if_pos hle]
  · rw [if_neg hle]

/-- When `justify_slug` returns on a slug without a space, it returns the slug. -/
theorem justify_slug_no_space {fuel : Nat} {slug : Str} {width : Nat} {rtl : Bool} {out : Str}
    (h : ' ' ∉ slug) (hj : justify_slug fuel slug width rtl = some out) : out = slug := by
  by_cases hpos : padding_of width slug.length > 0
  · rw [justify_slug_none width rtl slug h hpos] at hj
    exact absurd hj (by simp)
  · have hj1 := justify_slug_eq_some.1 hj
    cases fuel with
    | zero => simp [justify_loop_zero] at hj1
    | succ fuel =>
      rw [justify_loop_succ, if_neg hpos] at hj1
      exact (Outcome.returned.inj hj1).symm

theorem close_all_justify (fuel width : Nat) (hw : width ≤ 255) :
    ∀ (gs : List (List Str)) (slugs res : List Str),
      (∀ g ∈ gs, (trail g).length ≤ width ∨ ∃ w, g = [w] ∧ ' ' ∉ w) →
      close_all fuel width .align_justify gs slugs = some res →
      ∃ js, res = slugs ++ js ∧
        List.Forall₂ (fun g j => ((unwords g).length ≤ width → j.length = width) ∧
          (width < (unwords g).length → j = unwords g)) gs js
  | [], slugs, res, _, h => by
    simp only [close_all, Option.some.injEq] at h
    exact ⟨[], by simp [h], List.Forall₂.nil⟩
  | g :: gs, slugs, res, hgs, h => by
    rw [close_all] at h
    unfold close_slug at h
    cases hj : justify_slug fuel (unwords g) width (slugs.length % 2 != 0) with
    | none => rw [hj] at h; exact absurd h (by simp)
    | some j =>
      rw [hj] at h
      obtain ⟨js, hres, hall⟩ := close_all_justify fuel width hw gs _ res
        (fun g hg => hgs g (List.mem_cons_of_mem _ hg)) h
      refine ⟨j :: js, by simp [hres],
        List.Forall₂.cons ⟨fun hg => length_justify_slug hw hg hj, fun hlong => ?_⟩ hall⟩
      rcases hgs g (by simp) with hb | ⟨w, rfl, hsp⟩
      · have := length_unwords_le g
        omega
      · rw [unwords_singleton] at hj ⊢
        exact justify_slug_no_space hsp hj

theorem groups_bound_words (width : Nat) (s : Str) :
    ∀ g ∈ groups width (split_words [' '] s),
      (trail g).length ≤ width ∨ ∃ w, g = [w] ∧ ' ' ∉ w := by
  intro g hg
  rcases groups_bound width _ g hg with h | ⟨w, rfl⟩
  · exact Or.inl h
  · refine Or.inr ⟨w, rfl, fun hsp => ?_⟩
    exact (split_words_mem [' '] s w (mem_of_mem_groups hg (by simp))).2.2 ' ' hsp (by simp)

/-! ## Claims -/

/-- C1. Pass-through: a line whose trimmed form is empty or starts with one of
`|`, `*`, `-`, `#` is returned as it is, white space at its ends included, for
every width, every alignment and every amount of fuel. -/
theorem align_para_pass_through (fuel : Nat) (line : Str) (width : Nat) (mode : Alignment)
    (h : trim_copy line = [] ∨
      ∃ c rest, trim_copy line = c :: rest ∧ (c = '|' ∨ c = '*' ∨ c = '-' ∨ c = '#')) :
    align_para fuel line width mode = some line := by
  have hp : pass_through (trim_copy line) = true := by
    rcases h with h | ⟨c, rest, h, hc⟩
    · simp [pass_through, h]
    · rcases hc with rfl | rfl | rfl | rfl <;> simp [pass_through, h]
  simp [align_para, hp]

/-- C1, at the line `# A heading line` of the specification, here with white space
around it. -/
theorem align_para_pass_through_witness :
    (trim_copy "  # A heading line \t".toList = [] ∨
      ∃ c rest, trim_copy "  # A heading line \t".toList = c :: rest ∧
        (c = '|' ∨ c = '*' ∨ c = '-' ∨ c = '#')) ∧
    align_para 0 "  # A heading line \t".toList 72 .align_justify
      = some "  # A heading line \t".toList :=
  have h : trim_copy "  # A heading line \t".toList = [] ∨
      ∃ c rest, trim_copy "  # A heading line \t".toList = c :: rest ∧
        (c = '|' ∨ c = '*' ∨ c = '-' ∨ c = '#') :=
    Or.inr ⟨'#', " A heading line".toList, by decide, Or.inr (Or.inr (Or.inr rfl))⟩
  ⟨h, align_para_pass_through 0 _ 72 .align_justify h⟩

/-- C10. Tokenizer contract: with fuel above the length of the string, `tokenize`
returns tokens that are non-empty substrings of the string without a delimiter,
that occur in order with runs of delimiters around them, and there is no token
exactly when the string is empty or holds delimiters only. -/
theorem tokenize_contract (fuel : Nat) (str delims : Str) (hfuel : str.length < fuel) :
    ∃ tokens : List Str, tokenize fuel str [] delims = some tokens ∧
      (∀ t ∈ tokens, t ≠ [] ∧ t <:+: str ∧ ∀ c ∈ t, c ∉ delims) ∧
      (∃ seps : List Str, seps.length = tokens.length + 1 ∧
        (∀ sep ∈ seps, ∀ c ∈ sep, c ∈ delims) ∧ weave seps tokens = str) ∧
      (tokens = [] ↔ (str = [] ∨ ∀ c ∈ str, c ∈ delims)) := by
  have h := split_words_tokens delims str
  refine ⟨split_words delims str, by simpa using tokenize_eq fuel str [] delims hfuel,
    h.mem, h.weave_eq, ?_⟩
  rw [h.nil_iff]
  constructor
  · exact Or.inr
  · rintro (rfl | h)
    · simp
    · exact h

/-- C10, on a string with delimiters at both ends and a run of three inside. -/
theorem tokenize_contract_witness :
    "  a bb   c ".toList.length < 12 ∧
    ∃ tokens : List Str, tokenize 12 "  a bb   c ".toList [] [' '] = some tokens ∧
      (∀ t ∈ tokens, t ≠ [] ∧ t <:+: "  a bb   c ".toList ∧ ∀ c ∈ t, c ∉ [' ']) ∧
      (∃ seps : List Str, seps.length = tokens.length + 1 ∧
        (∀ sep ∈ seps, ∀ c ∈ sep, c ∈ [' ']) ∧ weave seps tokens = "  a bb   c ".toList) ∧
      (tokens = [] ↔ ("  a bb   c ".toList = [] ∨ ∀ c ∈ "  a bb   c ".toList, c ∈ [' '])) :=
  ⟨by decide, tokenize_contract 12 "  a bb   c ".toList [' '] (by decide)⟩

/-- C5. Width bound in left mode: for a line without a line break that is not passed
through, with fuel above its length, every line of the output is at most `width` long,
or else is one of the words of the line, alone on its line. -/
theorem left_width_bound (fuel : Nat) (line : Str) (width : Nat) (hfuel : line.length < fuel)
    (hp : pass_through (trim_copy line) = false) (hnl : '\n' ∉ line) :
    ∃ words out, tokenize fuel (trim_copy line) [] [' '] = some words ∧
      align_para fuel line width .align_left = some out ∧
      ∀ l ∈ lines_of out, l.length ≤ width ∨ (width < l.length ∧ l ∈ words) := by
  have hlen : (trim_copy line).length < fuel :=
    lt_of_le_of_lt (trim_copy_sublist line).length_le hfuel
  refine ⟨_, _, by simpa using tokenize_eq fuel (trim_copy line) [] [' '] hlen,
    align_para_total fuel line width .align_left hfuel hp (by decide), ?_⟩
  intro l hl
  rw [lines_of_join_slugs _ (by simp [groups_ne_nil])
    (slug_no_newline line width .align_left hnl)] at hl
  obtain ⟨g, hg, rfl⟩ := List.mem_map.1 hl
  simp only [close_final]
  rcases groups_bound width _ g hg with h | ⟨w, rfl⟩
  · exact Or.inl (le_trans (length_unwords_le g) h)
  · rw [unwords_singleton]
    by_cases hw : w.length ≤ width
    · exact Or.inl hw
    · exact Or.inr ⟨by omega, mem_of_mem_groups hg (by simp)⟩

/-- C5, on a line with a word longer than the width in the middle. -/
theorem left_width_bound_witness :
    "ab cd abcdefgh ef".toList.length < 20 ∧
    pass_through (trim_copy "ab cd abcdefgh ef".toList) = false ∧
    '\n' ∉ "ab cd abcdefgh ef".toList ∧
    ∃ words out, tokenize 20 (trim_copy "ab cd abcdefgh ef".toList) [] [' '] = some words ∧
      align_para 20 "ab cd abcdefgh ef".toList 6 .align_left = some out ∧
      ∀ l ∈ lines_of out, l.length ≤ 6 ∨ (6 < l.length ∧ l ∈ words) :=
  ⟨by decide, by decide, by decide,
    left_width_bound 20 "ab cd abcdefgh ef".toList 6 (by decide) (by decide) (by decide)⟩

/-- C7. Center split rule: for a slug `s` with `p = width - length s ≥ 0`, `center_slug`
returns `p / 2` spaces, then `s`, then `p - p / 2` spaces. -/
theorem center_slug_split (s : Str) (width : Nat) (hw : width ≤ 255)
    (h : s.length ≤ width) :
    center_slug s width =
      List.replicate ((width - s.length) / 2) ' ' ++ s ++
        List.replicate ((width - s.length) - (width - s.length) / 2) ' ' :=
  center_slug_le hw h

/-- C7, with an odd padding of 5: two spaces on the left and three on the right. -/
theorem center_slug_split_witness :
    (10 ≤ 255 ∧ "hello".toList.length ≤ 10) ∧
    center_slug "hello".toList 10 = "  hello   ".toList :=
  ⟨⟨by decide, by decide⟩, center_slug_split "hello".toList 10 (by decide) (by decide)⟩

theorem pack_ne_nil (width : Nat) :
    ∀ (ws g : List Str), g ≠ [] →
      ∀ h ∈ (pack width ws g).1 ++ [(pack width ws g).2], h ≠ []
  | [], g, hg => by simpa [pack] using hg
  | w :: ws, g, hg => by
    by_cases hf : (trail g).length + 1 + w.length ≤ width
    · have := pack_ne_nil width ws (g ++ [w]) (by simp)
      simpa [pack, hf] using this
    · have := pack_ne_nil width ws [w] (by simp)
      intro k hk
      simp only [pack, hf, if_false, List.cons_append, List.mem_cons] at hk
      rcases hk with rfl | hk
      · exact hg
      · exact this k hk

/-- Only the first group of a line can be empty. -/
theorem groups_tail_ne_nil (width : Nat) :
    ∀ words : List Str, ∀ g ∈ (groups width words).tail, g ≠ []
  | [], g, hg => by simp [groups, pack] at hg
  | w :: ws, g, hg => by
    by_cases hf : (trail []).length + 1 + w.length ≤ width
    · have := pack_ne_nil width ws [w] (by simp)
      have hgr : groups width (w :: ws) = (pack width ws [w]).1 ++ [(pack width ws [w]).2] := by
        simp [groups, pack, hf]
      rw [hgr] at hg
      exact this g (List.mem_of_mem_tail hg)
    · have := pack_ne_nil width ws [w] (by simp)
      have hgr : groups width (w :: ws) =
          [] :: ((pack width ws [w]).1 ++ [(pack width ws [w]).2]) := by
        simp [groups, pack, hf]
      rw [hgr] at hg
      exact this g hg

/-- The first group is empty exactly when the first word does not pass the test of
the loop on the empty slug. -/
theorem groups_head_nil_iff (width : Nat) (w : Str) (ws : List Str) :
    (groups width (w :: ws)).head? = some [] ↔ width < 1 + w.length := by
  by_cases hf : (trail []).length + 1 + w.length ≤ width
  · have hne := pack_ne_nil width ws [w] (by simp)
    have hgr : groups width (w :: ws) = (pack width ws [w]).1 ++ [(pack width ws [w]).2] := by
      simp [groups, pack, hf]
    have hf1 : ¬ width < 1 + w.length := by simp [trail] at hf; omega
    constructor
    · intro h
      rw [hgr] at h
      exact absurd rfl (hne [] (List.mem_of_mem_head? h))
    · intro h
      exact absurd h hf1
  · have hgr : groups width (w :: ws) =
        [] :: ((pack width ws [w]).1 ++ [(pack width ws [w]).2]) := by
      simp [groups, pack, hf]
    have hf1 : width < 1 + w.length := by simp [trail] at hf; omega
    constructor
    · intro _
      exact hf1
    · intro _
      rw [hgr]
      rfl

theorem groups_getLast_ne_nil (width : Nat) (words : List Str) (hw : words ≠ []) (g : List Str)
    (hg : (groups width words).getLast? = some g) : g ≠ [] := by
  have hfl := groups_flatten width words
  have htl := groups_tail_ne_nil width words
  cases hgs : groups width words with
  | nil => rw [hgs] at hg; simp at hg
  | cons a r =>
    rw [hgs] at hg hfl htl
    cases r with
    | nil =>
      simp only [List.getLast?_singleton, Option.some.injEq] at hg
      subst hg
      simp only [List.flatten_cons, List.flatten_nil, List.append_nil] at hfl
      rw [hfl]
      exact hw
    | cons b r =>
      rw [List.getLast?_cons_cons] at hg
      obtain ⟨ys, hys⟩ := List.getLast?_eq_some_iff.1 hg
      exact htl g (by simp [hys])

/-- A line that is not passed through has a word. -/
theorem words_ne_nil (line : Str) (hp : pass_through (trim_copy line) = false) :
    split_words [' '] (trim_copy line) ≠ [] := by
  intro h
  have hall := (split_words_tokens [' '] (trim_copy line)).nil_iff.1 h
  have hne : trim_copy line ≠ [] := by
    intro e
    rw [e] at hp
    exact absurd hp (by decide)
  have hd : (para : Str) → para.dropWhile is_space ≠ [] →
      ∃ c rest, para.dropWhile is_space = c :: rest ∧ is_space c = false := by
    intro para hpne
    have := List.head_dropWhile_not is_space para hpne
    cases hdw : para.dropWhile is_space with
    | nil => exact absurd hdw hpne
    | cons c rest =>
      refine ⟨c, rest, rfl, ?_⟩
      simp only [hdw, List.head_cons] at this
      exact this
  obtain ⟨c, rest, hc, hsp⟩ := hd _ hne
  have hc1 : trim_copy line = c :: rest := hc
  have := hall c (by rw [hc1]; simp)
  simp only [List.mem_singleton] at this
  rw [this] at hsp
  exact absurd hsp (by decide)

theorem count_join_slugs : ∀ slugs : List Str, (∀ s ∈ slugs, '\n' ∉ s) →
    (join_slugs slugs).count '\n' = slugs.length - 1
  | [], _ => rfl
  | [s], h => by
    show s.count '\n' = 0
    exact List.count_eq_zero.2 (h s (by simp))
  | s :: t :: slugs, h => by
    have ih := count_join_slugs (t :: slugs) (fun u hu => h u (List.mem_cons_of_mem _ hu))
    have hs : s.count '\n' = 0 := List.count_eq_zero.2 (h s (by simp))
    rw [join_slugs, List.count_append, List.count_cons_self, ih, hs]
    simp

theorem getLast_join_slugs : ∀ (slugs : List Str) (last : Str),
    slugs.getLast? = some last → last ≠ [] →
    ∃ c ∈ last, (join_slugs slugs).getLast? = some c
  | [], _, h, _ => by simp at h
  | [s], last, h, hl => by
    simp only [List.getLast?_singleton, Option.some.injEq] at h
    subst h
    exact ⟨s.getLast hl, List.getLast_mem hl, by
      rw [join_slugs]; exact List.getLast?_eq_getLast _ hl⟩
  | s :: t :: slugs, last, h, hl => by
    rw [List.getLast?_cons_cons] at h
    obtain ⟨c, hc, hlast⟩ := getLast_join_slugs (t :: slugs) last h hl
    refine ⟨c, hc, ?_⟩
    obtain ⟨ys, hys⟩ := List.getLast?_eq_some_iff.1 hlast
    rw [join_slugs, hys]
    apply List.getLast?_eq_some_iff.2
    exact ⟨s ++ '\n' :: ys, by simp⟩

/-- C9. Left-mode output shape and word preservation: for a line without a line break
that is not passed through, with fuel above its length, the slugs are the groups of the
builder with their words joined by single spaces; the groups in order hold exactly the
tokens of the trimmed line; no group but the first is empty, and the first is empty
exactly when the first word fails the test of the loop; the output is the slugs joined
by line breaks: its lines are the slugs, it has one line break less than it has slugs
and it does not end in a line break. -/
theorem left_shape (fuel : Nat) (line : Str) (width : Nat) (hfuel : line.length < fuel)
    (hp : pass_through (trim_copy line) = false) (hnl : '\n' ∉ line) :
    ∃ (words : List Str) (gs : List (List Str)) (out : Str),
      tokenize fuel (trim_copy line) [] [' '] = some words ∧
      gs = groups width words ∧
      align_slugs fuel (trim_copy line) width .align_left
        = some (gs.map (List.intercalate [' '])) ∧
      gs.flatten = words ∧
      (∀ g ∈ gs, ∀ w ∈ g, w ≠ [] ∧ ' ' ∉ w ∧ '\n' ∉ w) ∧
      (∀ g ∈ gs.tail, g ≠ []) ∧
      (∀ g, gs.getLast? = some g → g ≠ []) ∧
      (gs.head? = some [] ↔ ∃ w rest, words = w :: rest ∧ width < 1 + w.length) ∧
      align_para fuel line width .align_left = some out ∧
      out = List.intercalate ['\n'] (gs.map (List.intercalate [' '])) ∧
      lines_of out = gs.map (List.intercalate [' ']) ∧
      out.count '\n' = gs.length - 1 ∧
      out.getLast? ≠ some '\n' := by
  have hlen : (trim_copy line).length < fuel :=
    lt_of_le_of_lt (trim_copy_sublist line).length_le hfuel
  have hwne := words_ne_nil line hp
  have hpara := align_para_total fuel line width .align_left hfuel hp (by decide)
  have hslugs := align_slugs_total fuel width .align_left (trim_copy line) hlen (by decide)
  have hno := slug_no_newline line width .align_left hnl
  have hmap : (groups width (split_words [' '] (trim_copy line))).map
      (fun g => close_final width .align_left (unwords g)) =
      (groups width (split_words [' '] (trim_copy line))).map (List.intercalate [' ']) := rfl
  rw [hmap] at hpara hslugs hno
  refine ⟨split_words [' '] (trim_copy line), groups width (split_words [' '] (trim_copy line)),
    _, by simpa using tokenize_eq fuel (trim_copy line) [] [' '] hlen, rfl, hslugs,
    groups_flatten width _, ?_, groups_tail_ne_nil width _,
    groups_getLast_ne_nil width _ hwne, ?_, hpara, join_slugs_eq_intercalate _,
    lines_of_join_slugs _ (by simp [groups_ne_nil]) hno, ?_, ?_⟩
  · intro g hg w hw
    obtain ⟨h1, h2, h3⟩ := split_words_mem [' '] (trim_copy line) w (mem_of_mem_groups hg hw)
    exact ⟨h1, fun h => h3 ' ' h (by simp),
      fun h => hnl ((trim_copy_sublist line).subset (h2.subset h))⟩
  · cases hws : split_words [' '] (trim_copy line) with
    | nil => exact absurd hws hwne
    | cons w ws =>
      rw [groups_head_nil_iff]
      constructor
      · intro h
        exact ⟨w, ws, rfl, h⟩
      · rintro ⟨w1, ws1, h1, h2⟩
        simp only [List.cons.injEq] at h1
        rw [h1.1]
        exact h2
  · rw [count_join_slugs _ hno]
    simp
  · have hgl : ((groups width (split_words [' '] (trim_copy line))).map
        (List.intercalate [' '])).getLast? ≠ none := by
      simp [groups_ne_nil]
    cases hlast : ((groups width (split_words [' '] (trim_copy line))).map
        (List.intercalate [' '])).getLast? with
    | none => exact absurd hlast hgl
    | some last =>
      have hmem : last ∈ (groups width (split_words [' '] (trim_copy line))).map
          (List.intercalate [' ']) := by
        obtain ⟨ys, hys⟩ := List.getLast?_eq_some_iff.1 hlast
        rw [hys]
        simp
      have hlne : last ≠ [] := by
        rw [List.getLast?_map] at hlast
        obtain ⟨g, hg, rfl⟩ := Option.map_eq_some'.1 hlast
        have hgne := groups_getLast_ne_nil width _ hwne g hg
        cases g with
        | nil => exact absurd rfl hgne
        | cons w g1 =>
          have hw1 : w ≠ [] := (split_words_mem [' '] (trim_copy line) w
            (mem_of_mem_groups (List.mem_of_mem_getLast? hg) (by simp))).1
          intro e
          change unwords (w :: g1) = [] at e
          cases g1 with
          | nil =>
            rw [unwords_singleton] at e
            exact hw1 e
          | cons v g2 =>
            rw [unwords_cons_cons] at e
            simp at e
      obtain ⟨c, hc, hout⟩ := getLast_join_slugs _ last hlast hlne
      rw [hout]
      intro e
      have := Option.some.inj e
      subst this
      exact hno last hmem hc

/-- C9, on the line of the specification: three slugs at width 20. -/
theorem left_shape_witness :
    ("The quick brown fox jumps over the lazy dog".toList.length < 44 ∧
      pass_through (trim_copy "The quick brown fox jumps over the lazy dog".toList) = false ∧
      '\n' ∉ "The quick brown fox jumps over the lazy dog".toList) ∧
    (∃ (words : List Str) (gs : List (List Str)) (out : Str),
      tokenize 44 (trim_copy "The quick brown fox jumps over the lazy dog".toList) [] [' ']
        = some words ∧
      gs = groups 20 words ∧
      align_slugs 44 (trim_copy "The quick brown fox jumps over the lazy dog".toList) 20
        .align_left = some (gs.map (List.intercalate [' '])) ∧
      gs.flatten = words ∧
      (∀ g ∈ gs, ∀ w ∈ g, w ≠ [] ∧ ' ' ∉ w ∧ '\n' ∉ w) ∧
      (∀ g ∈ gs.tail, g ≠ []) ∧
      (∀ g, gs.getLast? = some g → g ≠ []) ∧
      (gs.head? = some [] ↔ ∃ w rest, words = w :: rest ∧ 20 < 1 + w.length) ∧
      align_para 44 "The quick brown fox jumps over the lazy dog".toList 20 .align_left
        = some out ∧
      out = List.intercalate ['\n'] (gs.map (List.intercalate [' '])) ∧
      lines_of out = gs.map (List.intercalate [' ']) ∧
      out.count '\n' = gs.length - 1 ∧
      out.getLast? ≠ some '\n') ∧
    align_para 44 "The quick brown fox jumps over the lazy dog".toList 20 .align_left =
      some "The quick brown fox\njumps over the lazy\ndog".toList ∧
    groups 20 ["The".toList, "quick".toList, "brown".toList, "fox".toList, "jumps".toList,
        "over".toList, "the".toList, "lazy".toList, "dog".toList] =
      [["The".toList, "quick".toList, "brown".toList, "fox".toList],
        ["jumps".toList, "over".toList, "the".toList, "lazy".toList], ["dog".toList]] :=
  ⟨⟨by decide, by decide, by decide⟩,
    left_shape 44 "The quick brown fox jumps over the lazy dog".toList 20 (by decide)
      (by decide) (by decide),
    by decide, by decide⟩

/-- C6. Right and center exactness: for a line without a line break that is not passed
through, a width of at most 255 and fuel above the length of the line, the lines of the
output in right or center mode match the raw slugs (those of left mode) one to one, and
every line whose raw slug is at most `width` long is exactly `width` long, the last
included. -/
theorem right_center_exact (fuel : Nat) (line : Str) (width : Nat) (mode : Alignment)
    (hfuel : line.length < fuel) (hp : pass_through (trim_copy line) = false)
    (hnl : '\n' ∉ line) (hw : width ≤ 255)
    (hm : mode = .align_right ∨ mode = .align_center) :
    ∃ raws out, align_slugs fuel (trim_copy line) width .align_left = some raws ∧
      align_para fuel line width mode = some out ∧
      List.Forall₂ (fun raw l => raw.length ≤ width → l.length = width) raws (lines_of out) := by
  have hlen : (trim_copy line).length < fuel :=
    lt_of_le_of_lt (trim_copy_sublist line).length_le hfuel
  have hmj : mode ≠ .align_justify := by rcases hm with rfl | rfl <;> decide
  refine ⟨_, _, align_slugs_total fuel width .align_left _ hlen (by decide),
    align_para_total fuel line width mode hfuel hp hmj, ?_⟩
  rw [lines_of_join_slugs _ (by simp [groups_ne_nil]) (slug_no_newline line width mode hnl)]
  rw [List.forall₂_map_right_iff, List.forall₂_map_left_iff, List.forall₂_same]
  intro g _ hg
  simp only [close_final] at hg
  rcases hm with rfl | rfl
  · exact length_right_slug hw hg
  · exact length_center_slug hw hg

/-- C6, on the line of the specification: `hi there` at width 10 in right mode. -/
theorem right_center_exact_witness :
    ("hi there".toList.length < 9 ∧ pass_through (trim_copy "hi there".toList) = false ∧
      '\n' ∉ "hi there".toList ∧ 10 ≤ 255) ∧
    (∃ raws out, align_slugs 9 (trim_copy "hi there".toList) 10 .align_left = some raws ∧
      align_para 9 "hi there".toList 10 .align_right = some out ∧
      List.Forall₂ (fun raw l => raw.length ≤ 10 → l.length = 10) raws (lines_of out)) ∧
    align_para 9 "hi there".toList 10 .align_right = some "  hi there".toList :=
  ⟨⟨by decide, by decide, by decide, by decide⟩,
    right_center_exact 9 "hi there".toList 10 .align_right (by decide) (by decide) (by decide)
      (by decide) (Or.inl rfl),
    by decide⟩

/-- C2. The slug builder does not pack two words whose join is exactly as long as the
width: `ab cd` is 5 characters long and is broken at width 5, because the test
counts the space that ends the slug under construction and one more. -/
theorem greedy_exact_width_not_packed :
    (unwords ["ab".toList, "cd".toList]).length = 5 ∧
    align_slugs 6 "ab cd".toList 5 .align_left = some ["ab".toList, "cd".toList] ∧
    align_para 6 "ab cd".toList 5 .align_left = some "ab\ncd".toList := by
  decide

/-- C3. A single word longer than the width is not alone in the output: the loop first
closes the empty slug, so the output starts with an empty line. -/
theorem long_word_after_empty_slug :
    align_slugs 7 "abcdef".toList 3 .align_left = some [[], "abcdef".toList] ∧
    align_para 7 "abcdef".toList 3 .align_left = some "\nabcdef".toList := by
  decide

/-- C4. In justify mode `align_para` does not return on the line `hello wonderful` at
width 10, whatever the fuel: the slug `hello` has no space to stretch. -/
theorem justify_not_total :
    ∀ fuel : Nat, align_para fuel "hello wonderful".toList 10 .align_justify = none := by
  intro fuel
  have hp : pass_through (trim_copy "hello wonderful".toList) = false := by decide
  have htrim : trim_copy "hello wonderful".toList = "hello wonderful".toList := by decide
  have key : align_slugs fuel (trim_copy "hello wonderful".toList) 10 .align_justify = none := by
    cases ht : tokenize fuel (trim_copy "hello wonderful".toList) [] [' '] with
    | none => unfold align_slugs; rw [ht]
    | some words =>
      obtain ⟨hwords, hs⟩ := align_slugs_of_tokenize fuel 10 .align_justify _ words ht
      have hw : words = ["hello".toList, "wonderful".toList] := by
        rw [hwords, htrim]; decide
      have hpack : pack 10 ["hello".toList, "wonderful".toList] []
          = ([["hello".toList]], ["wonderful".toList]) := by decide
      have hcs : close_slug fuel 10 .align_justify ([] : List Str).length
          (unwords ["hello".toList]) = none :=
        justify_slug_none 10 false "hello".toList (by decide) (by decide) fuel
      rw [hs, hw, hpack, close_all, hcs]
      rfl
  rw [align_para_eq fuel _ 10 .align_justify hp, key]
  rfl

/-- C8, as stated, fails on `a b abcdefgh xy` at width 5: the run returns three slugs
and the second, a word of 8 characters, is not 5 long. -/
theorem justify_exact_counterexample :
    ¬ (∀ slugs : List Str,
      align_slugs 16 (trim_copy "a b abcdefgh xy".toList) 5 .align_justify = some slugs →
      2 ≤ slugs.length → ∀ s ∈ slugs.dropLast, s.length = 5) := by
  intro h
  have h1 := h ["a   b".toList, "abcdefgh".toList, "xy".toList] (by decide) (by decide)
    "abcdefgh".toList (by decide)
  exact absurd h1 (by decide)

/-- C8, amended. When `align_para` returns in justify mode for a line that is not passed
through and a width of at most 255, its slugs match the raw slugs (those of left mode) one
to one; a slug before the last is exactly `width` long when its raw slug is at most `width`
long, and is its raw slug when that is longer than `width`; the last slug is the raw last
slug, which is at most `width` long or is a single word of the line. -/
theorem justify_exact (fuel : Nat) (line : Str) (width : Nat) (out : Str) (hw : width ≤ 255)
    (hp : pass_through (trim_copy line) = false)
    (h : align_para fuel line width .align_justify = some out) :
    ∃ (words : List Str) (raws slugs : List Str),
      tokenize fuel (trim_copy line) [] [' '] = some words ∧
      align_slugs fuel (trim_copy line) width .align_left = some raws ∧
      align_slugs fuel (trim_copy line) width .align_justify = some slugs ∧
      out = join_slugs slugs ∧
      List.Forall₂ (fun raw s => (raw.length ≤ width → s.length = width) ∧
          (width < raw.length → s = raw))
        raws.dropLast slugs.dropLast ∧
      ∃ l, raws.getLast? = some l ∧ slugs.getLast? = some l ∧
        (l.length ≤ width ∨ l ∈ words) := by
  simp only [align_para, hp, Bool.false_eq_true, if_false] at h
  cases ht : tokenize fuel (trim_copy line) [] [' '] with
  | none => simp [align_slugs, ht] at h
  | some words =>
    obtain ⟨hwords, hj⟩ := align_slugs_of_tokenize fuel width .align_justify _ words ht
    obtain ⟨_, hl⟩ := align_slugs_of_tokenize fuel width .align_left _ words ht
    rw [close_all_total fuel width .align_left (by decide)] at hl
    simp only [List.nil_append, Option.map_some', close_final] at hl
    rw [hj] at h
    cases hc : close_all fuel width .align_justify (pack width words []).1 [] with
    | none => simp [hc] at h
    | some js =>
      simp only [hc, Option.map_some', close_final] at h hj
      have hgs : ∀ g ∈ (pack width words []).1,
          (trail g).length ≤ width ∨ ∃ w, g = [w] ∧ ' ' ∉ w := by
        intro g hg
        rw [hwords] at hg
        exact groups_bound_words width (trim_copy line) g (by simp [groups, hg])
      obtain ⟨js1, hjs, hall⟩ := close_all_justify fuel width hw _ _ _ hgs hc
      simp only [List.nil_append] at hjs
      subst hjs
      refine ⟨words, _, _, rfl, hl, hj, ?_, ?_, unwords (pack width words []).2, ?_, ?_, ?_⟩
      · simpa using h.symm
      · simpa [List.forall₂_map_left_iff] using hall
      · simp
      · simp
      · have hg : (pack width words []).2 ∈ groups width words := by simp [groups]
        rcases groups_bound width words _ hg with hb | ⟨w, hw1⟩
        · exact Or.inl (le_trans (length_unwords_le _) hb)
        · rw [hw1, unwords_singleton]
          exact Or.inr (mem_of_mem_groups hg (by simp [hw1]))

/-- C8, amended, on a line with punctuation and a word longer than the width. -/
theorem justify_exact_witness :
    (12 ≤ 255 ∧
      pass_through (trim_copy "One, two. incomprehensible a b".toList) = false ∧
      align_para 40 "One, two. incomprehensible a b".toList 12 .align_justify
        = some "One,    two.\nincomprehensible\na b".toList) ∧
    ∃ (words : List Str) (raws slugs : List Str),
      tokenize 40 (trim_copy "One, two. incomprehensible a b".toList) [] [' ']
        = some words ∧
      align_slugs 40 (trim_copy "One, two. incomprehensible a b".toList) 12
        .align_left = some raws ∧
      align_slugs 40 (trim_copy "One, two. incomprehensible a b".toList) 12
        .align_justify = some slugs ∧
      "One,    two.\nincomprehensible\na b".toList = join_slugs slugs ∧
      List.Forall₂ (fun raw s => (raw.length ≤ 12 → s.length = 12) ∧
          (12 < raw.length → s = raw))
        raws.dropLast slugs.dropLast ∧
      ∃ l, raws.getLast? = some l ∧ slugs.getLast? = some l ∧
        (l.length ≤ 12 ∨ l ∈ words) :=
  ⟨⟨by decide, by decide, by decide⟩,
    justify_exact 40 "One, two. incomprehensible a b".toList 12 _ (by decide)
      (by decide) (by decide)⟩

/-! ## Claims on the replacer -/

theorem replace_from_end (input find repl : Str) (max : Nat) :
    replace input find repl max true =
      (replace input.reverse find.reverse repl.reverse max false).reverse := by
  unfold replace
  simp only [if_true, Bool.false_eq_true, if_false, List.length_reverse]

/-- C14. Zero budget: with `max = 0` the forward `replace` returns its input. -/
theorem replace_zero_budget (s pat repl : Str) : replace s pat repl 0 false = s := by
  unfold replace
  simp only [Bool.false_eq_true, if_false]
  split <;> rfl

/-- C15. Empty pattern: `replace` with the empty pattern returns its input, for every
replacement, budget and direction. -/
theorem replace_empty_pattern (input repl : Str) (max : Nat) (from_end : Bool) :
    replace input [] repl max from_end = input := by
  unfold replace
  cases from_end <;> simp

/-! ## The forward scan -/

theorem scan_replace_zero (find repl : Str) : ∀ s : Str, scan_replace find repl 0 0 s = s
  | [] => rfl
  | _ :: _ => rfl

theorem scan_replace_skip (find repl : Str) (k : Nat) :
    ∀ (x b : Str), scan_replace find repl k x.length (x ++ b) = scan_replace find repl k 0 b
  | [], b => rfl
  | c :: x, b => by
    have := scan_replace_skip find repl k x b
    simpa [scan_replace] using this

theorem scan_count_skip (find : Str) :
    ∀ (x b : Str), scan_count find x.length (x ++ b) = scan_count find 0 b
  | [], b => rfl
  | c :: x, b => by
    have := scan_count_skip find x b
    simpa [scan_count] using this

/-- What `find_sub` finds is the first occurrence that the scan meets. -/
theorem find_sub_scan (find repl : Str) (hf : find ≠ []) (k : Nat) :
    ∀ (rest : Str) (i : Nat),
      (find_sub find rest i = none ∧ scan_replace find repl (k + 1) 0 rest = rest ∧
        scan_count find 0 rest = 0) ∨
      ∃ a b, find_sub find rest i = some (i + a.length) ∧ rest = a ++ (find ++ b) ∧
        scan_replace find repl (k + 1) 0 rest = a ++ (repl ++ scan_replace find repl k 0 b) ∧
        scan_count find 0 rest = 1 + scan_count find 0 b
  | [], i => Or.inl ⟨by simp [find_sub, hf], rfl, rfl⟩
  | c :: cs, i => by
    by_cases hp : find.isPrefixOf (c :: cs) = true
    · obtain ⟨b, hb⟩ := List.isPrefixOf_iff_prefix.1 hp
      obtain ⟨f, x, rfl⟩ : ∃ f x, find = f :: x := by
        cases find with
        | nil => exact absurd rfl hf
        | cons f x => exact ⟨f, x, rfl⟩
      have hcs : cs = x ++ b := by
        simp only [List.cons_append, List.cons.injEq] at hb
        exact hb.2.symm
      refine Or.inr ⟨[], b, by simp [find_sub, hp], by simp [hb], ?_, ?_⟩
      · rw [scan_replace, if_pos hp, hcs]
        have := scan_replace_skip (f :: x) repl k x b
        simpa using this
      · rw [scan_count, if_pos hp, hcs]
        have := scan_count_skip (f :: x) x b
        simpa using this
    · rcases find_sub_scan find repl hf k cs (i + 1) with ⟨h1, h2, h3⟩ | ⟨a, b, h1, h2, h3, h4⟩
      · refine Or.inl ⟨by rw [find_sub, if_neg hp, h1], ?_, ?_⟩
        · rw [scan_replace, if_neg hp, h2]
        · rw [scan_count, if_neg hp, h3]
      · refine Or.inr ⟨c :: a, b, ?_, by simp [h2], ?_, ?_⟩
        · rw [find_sub, if_neg hp, h1]
          simp
          omega
        · rw [scan_replace, if_neg hp, h3]
          simp
        · rw [scan_count, if_neg hp, h4]

theorem splice_eq (a find repl b : Str) :
    (a ++ (find ++ b)).take a.length ++ repl ++ (a ++ (find ++ b)).drop (a.length + find.length)
      = a ++ (repl ++ b) := by
  rw [List.take_left, ← List.drop_drop, List.drop_left, List.drop_left]
  simp

/-- The loop of `replace` continues the scan on what is left of the input. -/
theorem replace_loop_scan (find repl : Str) (hf : find ≠ []) :
    ∀ (k : Nat) (done rest : Str),
      replace_loop find repl k (done ++ rest) done.length =
        done ++ scan_replace find repl k 0 rest
  | 0, done, rest => by rw [replace_loop, scan_replace_zero]
  | k + 1, done, rest => by
    have hs : str_find (done ++ rest) find done.length = find_sub find rest done.length := by
      simp [str_find]
    rw [replace_loop, hs]
    rcases find_sub_scan find repl hf k rest done.length with
      ⟨h1, h2, _⟩ | ⟨a, b, h1, h2, h3, _⟩
    · rw [h1, h2]
    · rw [h1, h3]
      simp only []
      have hsp := splice_eq (done ++ a) find repl b
      rw [h2]
      simp only [List.length_append, List.append_assoc] at hsp ⊢
      rw [hsp]
      have := replace_loop_scan find repl hf k (done ++ (a ++ repl)) b
      simp only [List.length_append, List.append_assoc] at this
      rw [show done.length + a.length + repl.length = done.length + (a.length + repl.length)
        by omega, this]

theorem replace_forward_scan (input find repl : Str) (hf : find ≠ []) (max : Nat) :
    replace input find repl max false = scan_replace find repl max 0 input := by
  unfold replace
  simp only [Bool.false_eq_true, if_false]
  have : find.length ≠ 0 := fun h => hf (List.length_eq_zero.1 h)
  rw [if_pos this]
  simpa using replace_loop_scan find repl hf max [] input

theorem length_scan_replace (find repl : Str) (hf : find ≠ []) :
    ∀ (k : Nat) (s : Str),
      (scan_replace find repl k 0 s).length + min k (scan_count find 0 s) * find.length =
        s.length + min k (scan_count find 0 s) * repl.length
  | 0, s => by simp [scan_replace_zero]
  | k + 1, s => by
    rcases find_sub_scan find repl hf k s 0 with ⟨_, h2, h3⟩ | ⟨a, b, _, h2, h3, h4⟩
    · rw [h2, h3]; simp
    · have ih := length_scan_replace find repl hf k b
      rw [h3, h4]
      have hm : min (k + 1) (1 + scan_count find 0 b) = min k (scan_count find 0 b) + 1 := by
        omega
      rw [hm, h2]
      simp only [List.length_append, Nat.add_mul, Nat.one_mul]
      omega

/-- C13. Right-to-left replacement: `replace` from the end is the reverse of `replace`
from the start on the reversed input, pattern and replacement, and so, for a pattern that
is not empty, the reverse of the scan of the reversed input; on `a b c` with one
replacement of a space by two it stretches the last gap. -/
theorem replace_rtl_reverse :
    (∀ (input find repl : Str) (max : Nat),
      replace input find repl max true =
        (replace input.reverse find.reverse repl.reverse max false).reverse) ∧
    (∀ (input find repl : Str) (max : Nat), find ≠ [] →
      replace input find repl max true =
        (scan_replace find.reverse repl.reverse max 0 input.reverse).reverse) ∧
    replace "a b c".toList " ".toList "  ".toList 1 true = "a b  c".toList := by
  refine ⟨replace_from_end, ?_, by decide⟩
  intro input find repl max hf
  rw [replace_from_end, replace_forward_scan _ _ _ (by simpa using hf)]

/-- C12. Forward bounded replace: for a pattern that is not empty, the forward `replace`
is the left-to-right scan of the input with the first `min max k` of its `k` occurrences
replaced, where the replacements are not scanned, and the length changes by
`min max k` times the difference of the lengths of replacement and pattern. -/
theorem replace_forward (input find repl : Str) (max : Nat) (hf : find ≠ []) :
    replace input find repl max false = scan_replace find repl max 0 input ∧
    (replace input find repl max false).length + min max (scan_count find 0 input) * find.length
      = input.length + min max (scan_count find 0 input) * repl.length := by
  rw [replace_forward_scan input find repl hf max]
  exact ⟨rfl, length_scan_replace find repl hf max input⟩

/-- C12, with a replacement that holds the pattern: two of the three occurrences of `a`
are replaced and the inserted `aa` is not scanned. -/
theorem replace_forward_witness :
    "a".toList ≠ [] ∧
    (replace "aXaXa".toList "a".toList "aa".toList 2 false
        = scan_replace "a".toList "aa".toList 2 0 "aXaXa".toList ∧
      (replace "aXaXa".toList "a".toList "aa".toList 2 false).length
          + min 2 (scan_count "a".toList 0 "aXaXa".toList) * "a".toList.length
        = "aXaXa".toList.length
          + min 2 (scan_count "a".toList 0 "aXaXa".toList) * "aa".toList.length) ∧
    replace "aXaXa".toList "a".toList "aa".toList 2 false = "aaXaaXa".toList ∧
    scan_count "a".toList 0 "aXaXa".toList = 3 :=
  ⟨by decide, replace_forward "aXaXa".toList "a".toList "aa".toList 2 (by decide),
    by decide, by decide⟩

/-! ## Claims on the justifier -/

theorem singleton_occurs_iff_mem (x : Char) (s : Str) : x ∈ s ↔ [x] <:+: s := by
  constructor
  · intro h
    obtain ⟨a, b, rfl⟩ := List.append_of_mem h
    exact ⟨a, b, by simp⟩
  · rintro ⟨a, b, rfl⟩
    simp

theorem no_space_iff_no_pattern (slug : Str) :
    ' ' ∉ slug ↔ ∀ r, r < 4 → ¬ (justify_replacements r).1 <:+: slug := by
  constructor
  · intro h r _ hin
    exact h (hin.subset (space_mem_justify_replacements r))
  · intro h hsp
    exact h 3 (by decide) ((singleton_occurs_iff_mem ' ' slug).1 hsp)

theorem justify_steps_no_space (width : Nat) (rtl : Bool) (slug : Str) (h : ' ' ∉ slug) :
    ∀ (n : Nat) (padding : Int) (i : Nat), justify_steps width rtl n slug padding i = slug
  | 0, _, _ => rfl
  | n + 1, padding, i => by
    rw [justify_steps]
    simp only [replace_none slug _ _ ' ' (space_mem_justify_replacements (i % 4)) _ rtl h]
    split
    · split
      · exact justify_steps_no_space width rtl slug h n _ (i + 1)
      · rfl
    · rfl

/-- C17, as stated, fails on the slug `hello` at width 10: the loop does not go on for
ever, since with fuel for `INT_MAX + 1` turns the run ends at the overflow of the
counter `i`, and not with the loop still going. -/
theorem justify_no_progress_counterexample :
    justify_loop 10 false 2147483648 "hello".toList (padding_of 10 "hello".toList.length) 0
      = Outcome.undefined ∧
    ¬ (∀ fuel : Nat,
      justify_loop 10 false fuel "hello".toList (padding_of 10 "hello".toList.length) 0
        = Outcome.out_of_fuel) := by
  have h := justify_loop_no_space 10 false "hello".toList (by decide) (by decide) 2147483648 0
    (Nat.zero_le _)
  rw [if_neg (by decide)] at h
  refine ⟨h, fun hall => ?_⟩
  rw [hall 2147483648] at h
  exact absurd h (by simp)

/-- C17, amended. No-progress hazard: when a slug shorter than the width holds no pattern
of a rule, or equivalently no space, every rule returns it as it is in both directions,
so the slug is the same and the padding positive after every turn, and `justify_slug`
returns no slug with any fuel: the loop is still going after each of the first `INT_MAX`
turns, and the turn after them ends in the overflow of the counter `i`. -/
theorem justify_no_progress (slug : Str) (width : Nat) (rtl : Bool) (hw : width ≤ 255)
    (hlen : slug.length < width)
    (h : ' ' ∉ slug ∨ ∀ r, r < 4 → ¬ (justify_replacements r).1 <:+: slug) :
    (' ' ∉ slug ∧ ∀ r, r < 4 → ¬ (justify_replacements r).1 <:+: slug) ∧
    (∀ (r k : Nat) (dir : Bool),
      replace slug (justify_replacements r).1 (justify_replacements r).2 k dir = slug) ∧
    padding_of width slug.length > 0 ∧
    (∀ n : Nat, justify_steps width rtl n slug (padding_of width slug.length) 0 = slug) ∧
    (∀ fuel : Nat, justify_slug fuel slug width rtl = none) ∧
    (∀ fuel : Nat, justify_loop width rtl fuel slug (padding_of width slug.length) 0 =
      if fuel ≤ INT_MAX then Outcome.out_of_fuel else Outcome.undefined) := by
  have hsp : ' ' ∉ slug := by
    rcases h with h | h
    · exact h
    · exact (no_space_iff_no_pattern slug).2 h
  have hpos : padding_of width slug.length > 0 := by
    rw [padding_of_le hw (le_of_lt hlen)]
    omega
  refine ⟨⟨hsp, (no_space_iff_no_pattern slug).1 hsp⟩,
    fun r k dir => replace_none slug _ _ ' ' (space_mem_justify_replacements r) k dir hsp,
    hpos, fun n => justify_steps_no_space width rtl slug hsp n _ 0,
    fun fuel => justify_slug_none width rtl slug hsp hpos fuel, fun fuel => ?_⟩
  have := justify_loop_no_space width rtl slug hsp hpos fuel 0 (Nat.zero_le _)
  simpa using this

/-- C17, amended, on the slug `hello` at width 10 and on the empty slug. -/
theorem justify_no_progress_witness :
    ((10 ≤ 255 ∧ "hello".toList.length < 10 ∧ ' ' ∉ "hello".toList) ∧
      (∀ fuel : Nat, justify_slug fuel "hello".toList 10 false = none) ∧
      ∀ fuel : Nat,
        justify_loop 10 false fuel "hello".toList (padding_of 10 "hello".toList.length) 0 =
          if fuel ≤ INT_MAX then Outcome.out_of_fuel else Outcome.undefined) ∧
    ∀ fuel : Nat, justify_slug fuel [] 10 true = none :=
  ⟨⟨⟨by decide, by decide, by decide⟩,
    (justify_no_progress "hello".toList 10 false (by decide) (by decide)
      (Or.inl (by decide))).2.2.2.2⟩,
    (justify_no_progress [] 10 true (by decide) (by decide) (Or.inl (by decide))).2.2.2.2.1⟩

theorem close_all_justify_index (fuel width : Nat) :
    ∀ (gs : List (List Str)) (slugs res : List Str),
      close_all fuel width .align_justify gs slugs = some res →
      ∃ js, res = slugs ++ js ∧ js.length = gs.length ∧
        ∀ (k : Nat) (g : List Str), gs[k]? = some g →
          ∃ j, js[k]? = some j ∧
            justify_slug fuel (unwords g) width ((slugs.length + k) % 2 != 0) = some j
  | [], slugs, res, h => by
    simp only [close_all, Option.some.injEq] at h
    exact ⟨[], by simp [h], rfl, by simp⟩
  | g :: gs, slugs, res, h => by
    rw [close_all] at h
    unfold close_slug at h
    cases hj : justify_slug fuel (unwords g) width (slugs.length % 2 != 0) with
    | none => rw [hj] at h; exact absurd h (by simp)
    | some j =>
      rw [hj] at h
      obtain ⟨js, hres, hlen, hall⟩ := close_all_justify_index fuel width gs _ res h
      refine ⟨j :: js, by simp [hres], by simp [hlen], ?_⟩
      intro k g1 hk
      cases k with
      | zero =>
        simp only [List.getElem?_cons_zero, Option.some.injEq] at hk
        subst hk
        exact ⟨j, by simp, hj⟩
      | succ k =>
        simp only [List.getElem?_cons_succ] at hk
        obtain ⟨j1, h1, h2⟩ := hall k g1 hk
        refine ⟨j1, by simpa using h1, ?_⟩
        rw [← h2]
        simp only [List.length_append, List.length_singleton]
        rw [show slugs.length + (k + 1) = slugs.length + 1 + k by omega]

theorem justify_replacements_eq_spec (i : Nat) :
    justify_replacements (i % 4) = spec_rules.getD (i % 4) ([], []) := by
  have hr : i % 4 = 0 ∨ i % 4 = 1 ∨ i % 4 = 2 ∨ i % 4 = 3 := by omega
  rcases hr with h | h | h | h <;> rw [h] <;> rfl

/-- A slug that the loop of `justify_slug` returns, for a slug that is not longer than
the width, is the slug of the specification after the turns that the loop took: the
turn at cursor `i` applies rule `i mod 4` of the table. -/
theorem justify_loop_spec (width : Nat) (rtl : Bool) (hw : width ≤ 255) :
    ∀ (fuel : Nat) (slug : Str) (i : Nat) (out : Str), slug.length ≤ width →
      justify_loop width rtl fuel slug (padding_of width slug.length) i = .returned out →
      ∃ n, out = justify_spec width rtl n slug i ∧
        (∀ t, t < n → (justify_spec width rtl t slug i).length < width) ∧
        width ≤ out.length
  | 0, _, _, _, _, h => by simp [justify_loop_zero] at h
  | fuel + 1, slug, i, out, hs, h => by
    rw [justify_loop_succ, padding_of_le hw hs] at h
    split at h
    · rename_i hpos
      have hlt : slug.length < width := by omega
      have hu : uchar_of_int ((width - slug.length : Nat) : Int) = width - slug.length := by
        unfold uchar_of_int; omega
      simp only [hu] at h
      have hle := length_replace_le slug (justify_replacements (i % 4)).1
        (justify_replacements (i % 4)).2 1 (justify_replacements_length _)
        (width - slug.length) rtl
      split at h
      · obtain ⟨n, h1, h2, h3⟩ := justify_loop_spec width rtl hw fuel _ (i + 1) out
          (by omega) h
        have hstep : ∀ m, justify_spec width rtl (m + 1) slug i =
            justify_spec width rtl m
              (replace slug (justify_replacements (i % 4)).1 (justify_replacements (i % 4)).2
                (width - slug.length) rtl) (i + 1) := by
          intro m
          rw [justify_spec, if_pos hlt, ← justify_replacements_eq_spec]
        refine ⟨n + 1, by rw [hstep]; exact h1, ?_, h3⟩
        intro t ht
        cases t with
        | zero => exact hlt
        | succ t =>
          rw [hstep]
          exact h2 t (by omega)
      · exact absurd h (by simp)
    · rename_i hpos
      have := Outcome.returned.inj h
      subst this
      exact ⟨0, rfl, fun t ht => absurd ht (Nat.not_lt_zero t), by omega⟩

/-- A slug that `justify_slug` returns for a slug of the builder is the slug of the
specification after the turns of the loop. -/
theorem justify_slug_spec {fuel : Nat} {slug : Str} {width : Nat} {rtl : Bool} {out : Str}
    (hw : width ≤ 255) (hs : slug.length ≤ width ∨ ' ' ∉ slug)
    (h : justify_slug fuel slug width rtl = some out) :
    ∃ n, out = justify_spec width rtl n slug 0 ∧
      (∀ t, t < n → (justify_spec width rtl t slug 0).length < width) ∧
      width ≤ out.length := by
  by_cases hle : slug.length ≤ width
  · exact justify_loop_spec width rtl hw fuel slug 0 out hle (justify_slug_eq_some.1 h)
  · rcases hs with hs | hs
    · exact absurd hs hle
    · have := justify_slug_no_space hs h
      subst this
      exact ⟨0, rfl, fun t ht => absurd ht (Nat.not_lt_zero t), by omega⟩

/-- C18. Direction alternation: when `align_para` returns in justify mode for a line that
is not passed through, at a width of at most 255, the slug at position `k` before the
last is `justify_slug` of the raw slug at `k` (that of left mode), from the start when
`k` is even and from the end when `k` is odd; it is the raw slug after the turns of the
specification, which start at rule 0 and apply rule `t mod 4` of the table
`. `, `; `, `, `, ` ` at turn `t`, as long as the slug is shorter than the width. -/
theorem justify_alternation (fuel : Nat) (line : Str) (width : Nat) (out : Str)
    (hw : width ≤ 255) (hp : pass_through (trim_copy line) = false)
    (h : align_para fuel line width .align_justify = some out) :
    ∃ raws slugs : List Str,
      align_slugs fuel (trim_copy line) width .align_left = some raws ∧
      align_slugs fuel (trim_copy line) width .align_justify = some slugs ∧
      out = join_slugs slugs ∧ slugs.length = raws.length ∧
      ∀ (k : Nat) (raw : Str), k + 1 < raws.length → raws[k]? = some raw →
        ∃ s, slugs[k]? = some s ∧ justify_slug fuel raw width (k % 2 != 0) = some s ∧
          ∃ n, s = justify_spec width (k % 2 != 0) n raw 0 ∧
            (∀ t, t < n → (justify_spec width (k % 2 != 0) t raw 0).length < width) ∧
            width ≤ s.length := by
  simp only [align_para, hp, Bool.false_eq_true, if_false] at h
  cases ht : tokenize fuel (trim_copy line) [] [' '] with
  | none => simp [align_slugs, ht] at h
  | some words =>
    obtain ⟨hwords, hj⟩ := align_slugs_of_tokenize fuel width .align_justify _ words ht
    obtain ⟨_, hl⟩ := align_slugs_of_tokenize fuel width .align_left _ words ht
    rw [close_all_total fuel width .align_left (by decide)] at hl
    simp only [List.nil_append, Option.map_some', close_final] at hl
    rw [hj] at h
    cases hc : close_all fuel width .align_justify (pack width words []).1 [] with
    | none => simp [hc] at h
    | some js =>
      simp only [hc, Option.map_some', close_final] at h hj
      obtain ⟨js1, hjs, hlen, hall⟩ := close_all_justify_index fuel width _ _ _ hc
      simp only [List.nil_append] at hjs
      subst hjs
      refine ⟨_, _, hl, hj, by simpa using h.symm, by simp [hlen], ?_⟩
      intro k raw hk hraw
      simp only [List.length_append, List.length_map, List.length_singleton] at hk
      have hk1 : k < (pack width words []).1.length := by omega
      rw [List.getElem?_append_left (by simpa using hk1), List.getElem?_map] at hraw
      obtain ⟨g, hg, rfl⟩ := Option.map_eq_some'.1 hraw
      obtain ⟨j, hj1, hj2⟩ := hall k g hg
      have hj3 : justify_slug fuel (unwords g) width (k % 2 != 0) = some j := by
        simpa using hj2
      have hgm : g ∈ groups width (split_words [' '] (trim_copy line)) := by
        rw [← hwords]
        simp only [groups, List.mem_append, List.mem_singleton]
        exact Or.inl (List.getElem?_mem hg)
      have hs : (unwords g).length ≤ width ∨ ' ' ∉ unwords g := by
        rcases groups_bound_words width _ g hgm with hb | ⟨w, rfl, hsp⟩
        · exact Or.inl (le_trans (length_unwords_le g) hb)
        · rw [unwords_singleton]
          exact Or.inr hsp
      refine ⟨j, ?_, hj3, justify_slug_spec hw hs hj3⟩
      rw [List.getElem?_append_left (by omega)]
      exact hj1

/-- C18, on a line with two slugs before the last: the rule of the full stop comes
before the rule of the space, so the first slug gets its space after the first full stop
and not after `a`, and the second, from the end, after the last full stop and not
after `g`. -/
theorem justify_alternation_witness :
    (10 ≤ 255 ∧ pass_through (trim_copy "a b. c. d e. f. g h i".toList) = false ∧
      align_para 30 "a b. c. d e. f. g h i".toList 10 .align_justify
        = some "a b.  c. d\ne. f.  g h\ni".toList) ∧
    (∃ raws slugs : List Str,
      align_slugs 30 (trim_copy "a b. c. d e. f. g h i".toList) 10 .align_left = some raws ∧
      align_slugs 30 (trim_copy "a b. c. d e. f. g h i".toList) 10 .align_justify
        = some slugs ∧
      "a b.  c. d\ne. f.  g h\ni".toList = join_slugs slugs ∧ slugs.length = raws.length ∧
      ∀ (k : Nat) (raw : Str), k + 1 < raws.length → raws[k]? = some raw →
        ∃ s, slugs[k]? = some s ∧ justify_slug 30 raw 10 (k % 2 != 0) = some s ∧
          ∃ n, s = justify_spec 10 (k % 2 != 0) n raw 0 ∧
            (∀ t, t < n → (justify_spec 10 (k % 2 != 0) t raw 0).length < 10) ∧
            10 ≤ s.length) ∧
    justify_spec 10 false 1 "a b. c. d".toList 0 = "a b.  c. d".toList ∧
    justify_spec 10 true 1 "e. f. g h".toList 0 = "e. f.  g h".toList :=
  ⟨⟨by decide, by decide, by decide⟩,
    justify_alternation 30 "a b. c. d e. f. g h i".toList 10 _ (by decide) (by decide)
      (by decide),
    by decide, by decide⟩

/-! ## The round trip of the tokenizer -/

theorem unwords_cons (w : Str) (g : List Str) :
    unwords (w :: g) = if g = [] then w else w ++ ' ' :: unwords g := by
  cases g with
  | nil => simp [unwords_singleton]
  | cons v g => simp [unwords_cons_cons]

theorem split_words_eq_nil_iff (delims s : Str) :
    split_words delims s = [] ↔ s.all (fun c => delims.contains c) = true := by
  rw [(split_words_tokens delims s).nil_iff]
  simp

/-- The words joined by single spaces are the string with its runs of delimiters
collapsed. -/
theorem unwords_split_words (delims : Str) :
    ∀ s : Str, unwords (split_words delims s) = collapse_runs (fun c => delims.contains c) s
  | [] => rfl
  | c :: cs => by
    have ih := unwords_split_words delims cs
    cases hc : delims.contains c with
    | true =>
      have h1 : split_words delims (c :: cs) = split_words delims cs := by
        cases cs <;> conv_lhs => rw [split_words]
        all_goals simp only [hc, if_true]
      have h2 : collapse_runs (fun c => delims.contains c) (c :: cs) =
          collapse_runs (fun c => delims.contains c) cs := by
        cases cs <;> conv_lhs => rw [collapse_runs]
        all_goals simp only [hc, if_true]
      rw [h1, h2]
      exact ih
    | false =>
      cases cs with
      | nil =>
        rw [split_words, collapse_runs]
        simp only [hc, Bool.false_eq_true, if_false, unwords_singleton]
      | cons d r =>
        cases hd : delims.contains d with
        | true =>
          rw [split_words, collapse_runs]
          simp only [hc, hd, Bool.false_eq_true, if_false, if_true]
          rw [unwords_cons, ih]
          by_cases hall : (d :: r).all (fun c => delims.contains c) = true
          · rw [if_pos hall, if_pos ((split_words_eq_nil_iff delims (d :: r)).2 hall)]
          · rw [if_neg hall, if_neg (fun h => hall ((split_words_eq_nil_iff delims (d :: r)).1 h))]
            rfl
        | false =>
          rw [split_words, collapse_runs]
          simp only [hc, hd, Bool.false_eq_true, if_false]
          cases hs : split_words delims (d :: r) with
          | nil =>
            have := (split_words_eq_nil_iff delims (d :: r)).1 hs
            simp only [List.all_cons, Bool.and_eq_true] at this
            rw [hd] at this
            exact absurd this.1 (by simp)
          | cons t ts =>
            rw [hs] at ih
            simp only []
            rw [← ih, unwords_cons, unwords_cons]
            split <;> rfl

/-- C11, as stated, fails on `a<TAB>b`: the tokenizer splits on the space only, so the
word keeps its tab, while the line with its white space collapsed is `a b`. -/
theorem tokenize_round_trip_counterexample :
    tokenize 4 "a\tb".toList [] [' '] = some ["a\tb".toList] ∧
    collapse_runs is_space "a\tb".toList = "a b".toList ∧
    ¬ (∃ tokens, tokenize 4 "a\tb".toList [] [' '] = some tokens ∧
      unwords tokens = collapse_runs is_space "a\tb".toList) := by
  refine ⟨by decide, by decide, ?_⟩
  rintro ⟨tokens, h1, h2⟩
  have h3 : tokenize 4 "a\tb".toList [] [' '] = some ["a\tb".toList] := by decide
  rw [h3] at h1
  have h4 := Option.some.inj h1
  subst h4
  exact absurd h2 (by decide)

/-- C11, amended. Tokenizer round trip: with fuel above the length of the line, the
tokens of `tokenize` with the default delimiter, joined by single spaces, are the line
with the runs of spaces at its ends removed and every run of spaces inside it collapsed
to one space. -/
theorem tokenize_round_trip (fuel : Nat) (line : Str) (hfuel : line.length < fuel) :
    ∃ tokens, tokenize fuel line [] [' '] = some tokens ∧
      List.intercalate [' '] tokens = collapse_runs (fun c => c == ' ') line := by
  refine ⟨split_words [' '] line, by simpa using tokenize_eq fuel line [] [' '] hfuel, ?_⟩
  have := unwords_split_words [' '] line
  have hfun : (fun c => [' '].contains c) = (fun c : Char => c == ' ') := by
    funext c
    simp only [List.contains, List.elem]
    cases (c == ' ') <;> rfl
  rw [hfun] at this
  exact this

/-- C11, amended, on a line with spaces at both ends and runs of spaces inside. -/
theorem tokenize_round_trip_witness :
    "  The  quick   fox ".toList.length < 20 ∧
    (∃ tokens, tokenize 20 "  The  quick   fox ".toList [] [' '] = some tokens ∧
      List.intercalate [' '] tokens =
        collapse_runs (fun c => c == ' ') "  The  quick   fox ".toList) ∧
    collapse_runs (fun c => c == ' ') "  The  quick   fox ".toList = "The quick fox".toList :=
  ⟨by decide, tokenize_round_trip 20 "  The  quick   fox ".toList (by decide), by decide⟩

/-! ## Stretching -/

theorem split_words_cons_delim (delims : Str) (c : Char) (cs : Str)
    (hc : delims.contains c = true) : split_words delims (c :: cs) = split_words delims cs := by
  cases cs <;> conv_lhs => rw [split_words]
  all_goals simp only [hc, if_true]

theorem split_words_cons_cons (delims : Str) (c d : Char) (r : Str)
    (hc : delims.contains c = false) :
    split_words delims (c :: d :: r) =
      if delims.contains d then [c] :: split_words delims (d :: r)
      else
        match split_words delims (d :: r) with
        | [] => [[c]]
        | t :: ts => (c :: t) :: ts := by
  conv_lhs => rw [split_words]
  simp only [hc, Bool.false_eq_true, if_false]

/-- A space next to a space does not change the words. -/
theorem split_words_double : ∀ (u v : Str),
    split_words [' '] (u ++ ' ' :: ' ' :: v) = split_words [' '] (u ++ ' ' :: v)
  | [], v => by
    simp only [List.nil_append]
    rw [split_words_cons_delim [' '] ' ' _ (by decide)]
  | [c], v => by
    have ih := split_words_double [] v
    simp only [List.nil_append, List.singleton_append] at ih ⊢
    cases hc : [' '].contains c with
    | true => rw [split_words_cons_delim _ _ _ hc, split_words_cons_delim _ _ _ hc, ih]
    | false =>
      rw [split_words_cons_cons _ _ _ _ hc, split_words_cons_cons _ _ _ _ hc, ih]
  | c :: d :: u, v => by
    have ih := split_words_double (d :: u) v
    simp only [List.cons_append] at ih ⊢
    cases hc : [' '].contains c with
    | true => rw [split_words_cons_delim _ _ _ hc, split_words_cons_delim _ _ _ hc, ih]
    | false =>
      rw [split_words_cons_cons _ _ _ _ hc, split_words_cons_cons _ _ _ _ hc, ih]

theorem Stretched.length_eq {n : Nat} {s t : Str} (h : Stretched n s t) :
    t.length = s.length + n := by
  induction h with
  | refl s => rfl
  | step n s u v _ ih =>
    simp only [List.length_append, List.length_cons] at ih ⊢
    omega

theorem Stretched.words_eq {n : Nat} {s t : Str} (h : Stretched n s t) :
    split_words [' '] t = split_words [' '] s := by
  induction h with
  | refl s => rfl
  | step n s u v _ ih => rw [split_words_double, ih]

theorem Stretched.head_eq {n : Nat} {s t : Str} (h : Stretched n s t) : t.head? = s.head? := by
  induction h with
  | refl s => rfl
  | step n s u v _ ih =>
    rw [← ih]
    cases u <;> rfl

theorem Stretched.mem_space {n : Nat} {s t : Str} (h : Stretched n s t) (hs : ' ' ∈ s) :
    ' ' ∈ t := by
  cases h with
  | refl s => exact hs
  | step n s u v _ => simp

theorem Stretched.reverse {n : Nat} {s t : Str} (h : Stretched n s t) :
    Stretched n s.reverse t.reverse := by
  induction h with
  | refl s => exact Stretched.refl _
  | step n s u v _ ih =>
    have h1 : (u ++ ' ' :: v).reverse = v.reverse ++ ' ' :: u.reverse := by simp
    have h2 : (u ++ ' ' :: ' ' :: v).reverse = v.reverse ++ ' ' :: ' ' :: u.reverse := by simp
    rw [h1] at ih
    rw [h2]
    exact Stretched.step n _ _ _ ih

theorem Stretched.getLast_eq {n : Nat} {s t : Str} (h : Stretched n s t) :
    t.getLast? = s.getLast? := by
  rw [← List.head?_reverse, ← List.head?_reverse]
  exact h.reverse.head_eq

/-- One turn of the loop of `replace`, for a pattern with a space and the replacement
that doubles it, inserts a space next to a space. -/
theorem replace_step_stretched (x y : Str) {m : Nat} {s out : Str} {pos p : Nat}
    (hs : Stretched m s out) (hf : str_find out (x ++ ' ' :: y) pos = some p) :
    Stretched (m + 1) s
      (out.take p ++ (x ++ ' ' :: ' ' :: y) ++ out.drop (p + (x ++ ' ' :: y).length)) := by
  unfold str_find at hf
  split at hf
  · rename_i hpos
    rcases find_sub_scan (x ++ ' ' :: y) [] (by simp) 0 (out.drop pos) pos with
      ⟨h1, _⟩ | ⟨a, b, h1, h2, _⟩
    · rw [h1] at hf
      exact absurd hf (by simp)
    · rw [h1] at hf
      have hp : p = (out.take pos ++ a).length := by
        have := Option.some.inj hf
        simp only [List.length_append, List.length_take]
        omega
      have hout : out = (out.take pos ++ a) ++ ((x ++ ' ' :: y) ++ b) := by
        rw [List.append_assoc, ← h2, List.take_append_drop]
      have hsp := splice_eq (out.take pos ++ a) (x ++ ' ' :: y) (x ++ ' ' :: ' ' :: y) b
      rw [← hout, ← hp] at hsp
      rw [hsp]
      have hst : Stretched m s ((out.take pos ++ a ++ x) ++ ' ' :: (y ++ b)) := by
        have : (out.take pos ++ a ++ x) ++ ' ' :: (y ++ b) = out := by
          conv_rhs => rw [hout]
          simp
        rw [this]
        exact hs
      have := Stretched.step m s _ _ hst
      simpa using this
  · exact absurd hf (by simp)

theorem replace_loop_stretched (x y : Str) :
    ∀ (k m : Nat) (s out : Str) (pos : Nat), Stretched m s out →
      ∃ n, m ≤ n ∧ n ≤ m + k ∧
        Stretched n s (replace_loop (x ++ ' ' :: y) (x ++ ' ' :: ' ' :: y) k out pos)
  | 0, m, s, out, pos, hs => ⟨m, le_refl _, le_refl _, by rw [replace_loop]; exact hs⟩
  | k + 1, m, s, out, pos, hs => by
    rw [replace_loop]
    cases hf : str_find out (x ++ ' ' :: y) pos with
    | none => exact ⟨m, le_refl _, by omega, hs⟩
    | some p =>
      obtain ⟨n, h1, h2, h3⟩ := replace_loop_stretched x y k (m + 1) s _
        (p + (x ++ ' ' :: ' ' :: y).length) (replace_step_stretched x y hs hf)
      exact ⟨n, by omega, by omega, h3⟩

/-- A result of `replace`, for a pattern with a space and the replacement that doubles
it, is the input with at most `max` spaces inserted next to spaces. -/
theorem replace_stretched (x y : Str) (input : Str) (max : Nat) (rtl : Bool) :
    ∃ n, n ≤ max ∧
      Stretched n input (replace input (x ++ ' ' :: y) (x ++ ' ' :: ' ' :: y) max rtl) := by
  unfold replace
  cases rtl
  · simp only [Bool.false_eq_true, if_false]
    rw [if_pos (by simp)]
    obtain ⟨n, _, h2, h3⟩ := replace_loop_stretched x y max 0 input input 0 (Stretched.refl _)
    exact ⟨n, by omega, h3⟩
  · simp only [if_true]
    rw [if_pos (by simp)]
    have h1 : (x ++ ' ' :: y).reverse = y.reverse ++ ' ' :: x.reverse := by simp
    have h2 : (x ++ ' ' :: ' ' :: y).reverse = y.reverse ++ ' ' :: ' ' :: x.reverse := by simp
    rw [h1, h2]
    obtain ⟨n, _, h4, h5⟩ := replace_loop_stretched y.reverse x.reverse max 0 input.reverse
      input.reverse 0 (Stretched.refl _)
    refine ⟨n, by omega, ?_⟩
    have := h5.reverse
    rwa [List.reverse_reverse] at this

theorem justify_replacements_shape (r : Nat) :
    ∃ x : Str, (justify_replacements r).1 = x ++ ' ' :: [] ∧
      (justify_replacements r).2 = x ++ ' ' :: ' ' :: [] := by
  unfold justify_replacements
  split
  · exact ⟨['.'], rfl, rfl⟩
  · exact ⟨[';'], rfl, rfl⟩
  · exact ⟨[','], rfl, rfl⟩
  · exact ⟨[], rfl, rfl⟩

/-- A rule of the justifier inserts at most `max` spaces, each next to a space. -/
theorem rule_stretched (slug : Str) (r max : Nat) (rtl : Bool) :
    ∃ n, n ≤ max ∧ Stretched n slug
      (replace slug (justify_replacements r).1 (justify_replacements r).2 max rtl) := by
  obtain ⟨x, h1, h2⟩ := justify_replacements_shape r
  rw [h1, h2]
  exact replace_stretched x [] slug max rtl

theorem find_sub_singleton (x : Char) : ∀ (s : Str) (i : Nat), x ∈ s →
    ∃ p, find_sub [x] s i = some p
  | [], _, h => by simp at h
  | c :: cs, i, h => by
    rw [find_sub]
    by_cases hp : [x].isPrefixOf (c :: cs) = true
    · exact ⟨i, by rw [if_pos hp]⟩
    · rw [if_neg hp]
      have hne : x ≠ c := by
        intro e
        apply hp
        simp [List.isPrefixOf, e]
      rcases List.mem_cons.1 h with h | h
      · exact absurd h hne
      · exact find_sub_singleton x cs (i + 1) h

/-- The rule of the single space makes a replacement when the slug has a space and
the budget is positive. -/
theorem space_rule_progress (slug : Str) (max : Nat) (rtl : Bool) (hsp : ' ' ∈ slug)
    (hmax : 1 ≤ max) :
    ∃ n, 1 ≤ n ∧ n ≤ max ∧ Stretched n slug (replace slug [' '] [' ', ' '] max rtl) := by
  obtain ⟨k, rfl⟩ : ∃ k, max = k + 1 := ⟨max - 1, by omega⟩
  have key : ∀ s : Str, ' ' ∈ s →
      ∃ n, 1 ≤ n ∧ n ≤ k + 1 ∧ Stretched n s (replace_loop [' '] [' ', ' '] (k + 1) s 0) := by
    intro s hs
    obtain ⟨p, hp⟩ := find_sub_singleton ' ' s 0 hs
    have hf : str_find s ([] ++ ' ' :: []) 0 = some p := by
      simpa [str_find] using hp
    have hst := replace_step_stretched [] [] (Stretched.refl s) hf
    obtain ⟨n, h1, h2, h3⟩ := replace_loop_stretched [] [] k 1 s _ (p + 2) hst
    refine ⟨n, by omega, by omega, ?_⟩
    rw [replace_loop]
    simp only [List.nil_append] at hf h3
    rw [hf]
    exact h3
  unfold replace
  cases rtl
  · simp only [Bool.false_eq_true, if_false]
    rw [if_pos (by simp)]
    exact key slug hsp
  · simp only [if_true]
    rw [if_pos (by simp)]
    obtain ⟨n, h1, h2, h3⟩ := key slug.reverse (by simpa using hsp)
    refine ⟨n, h1, h2, ?_⟩
    have := h3.reverse
    rw [List.reverse_reverse] at this
    exact this

/-- With a space in the slug the loop of `justify_slug` returns: the rule of the single
space, one turn in four, makes the slug longer, and the counter stays far from
`INT_MAX`. -/
theorem justify_loop_terminates (width : Nat) (rtl : Bool) (hw : width ≤ 255) :
    ∀ (fuel : Nat) (slug : Str) (i : Nat), ' ' ∈ slug → slug.length ≤ width → 1 ≤ fuel →
      4 * (width - slug.length) + 1 ≤ fuel + i % 4 →
      i + 4 * (width - slug.length) + 3 ≤ INT_MAX + i % 4 →
      ∃ out, justify_loop width rtl fuel slug (padding_of width slug.length) i = .returned out
  | 0, _, _, _, _, h, _, _ => by omega
  | fuel + 1, slug, i, hsp, hlen, _, hfuel, hint => by
    rw [justify_loop_succ, padding_of_le hw hlen]
    by_cases hpos : ((width - slug.length : Nat) : Int) > 0
    · rw [if_pos hpos, if_pos (by omega)]
      have hu : uchar_of_int ((width - slug.length : Nat) : Int) = width - slug.length := by
        unfold uchar_of_int; omega
      simp only [hu]
      obtain ⟨n, hn, hst⟩ := rule_stretched slug (i % 4) (width - slug.length) rtl
      have hl := hst.length_eq
      have hprog : i % 4 = 3 → slug.length + 1 ≤ (replace slug (justify_replacements (i % 4)).1
          (justify_replacements (i % 4)).2 (width - slug.length) rtl).length := by
        intro h3
        rw [h3]
        obtain ⟨n1, h1, _, hst1⟩ := space_rule_progress slug (width - slug.length) rtl hsp
          (by omega)
        have := hst1.length_eq
        show slug.length + 1 ≤ (replace slug [' '] [' ', ' '] (width - slug.length) rtl).length
        omega
      exact justify_loop_terminates width rtl hw fuel _ (i + 1) (hst.mem_space hsp) (by omega)
        (by omega) (by omega) (by omega)
    · rw [if_neg hpos]
      exact ⟨slug, rfl⟩

/-- C16. `justify_slug` reaches the width: for a width of at most 255 and a slug with a
space that is not longer than the width, it returns with fuel `4 * (width - length) + 1`
or more, in both directions, and the result is exactly `width` long; every rule adds one
character for each of its at most `max` replacements, and the rule of the single space
makes at least one when `max` is positive. -/
theorem justify_reaches_width (fuel : Nat) (slug : Str) (width : Nat) (rtl : Bool)
    (hw : width ≤ 255) (hlen : slug.length ≤ width) (hsp : ' ' ∈ slug)
    (hfuel : 4 * (width - slug.length) + 1 ≤ fuel) :
    (∃ out, justify_slug fuel slug width rtl = some out ∧ out.length = width) ∧
    (∀ (r max : Nat) (dir : Bool), ∃ n, n ≤ max ∧
      (replace slug (justify_replacements r).1 (justify_replacements r).2 max dir).length
        = slug.length + n) ∧
    (∀ (max : Nat) (dir : Bool), 1 ≤ max →
      slug.length + 1 ≤ (replace slug (justify_replacements 3).1 (justify_replacements 3).2
        max dir).length) := by
  refine ⟨?_, ?_, ?_⟩
  · obtain ⟨out, hout⟩ := justify_loop_terminates width rtl hw fuel slug 0 hsp hlen (by omega)
      (by omega) (by unfold INT_MAX; omega)
    exact ⟨out, justify_slug_eq_some.2 hout,
      length_justify_loop width rtl hw fuel slug 0 out hlen hout⟩
  · intro r max dir
    obtain ⟨n, hn, hst⟩ := rule_stretched slug r max dir
    exact ⟨n, hn, hst.length_eq⟩
  · intro max dir hmax
    obtain ⟨n, h1, _, hst⟩ := space_rule_progress slug max dir hsp hmax
    have := hst.length_eq
    show slug.length + 1 ≤ (replace slug [' '] [' ', ' '] max dir).length
    omega

/-- C16, on the slug `One, two.` at width 12, from the end. -/
theorem justify_reaches_width_witness :
    (12 ≤ 255 ∧ "One, two.".toList.length ≤ 12 ∧ ' ' ∈ "One, two.".toList ∧
      4 * (12 - "One, two.".toList.length) + 1 ≤ 13) ∧
    (∃ out, justify_slug 13 "One, two.".toList 12 true = some out ∧ out.length = 12) ∧
    justify_slug 13 "One, two.".toList 12 true = some "One,    two.".toList :=
  ⟨⟨by decide, by decide, by decide, by decide⟩,
    (justify_reaches_width 13 "One, two.".toList 12 true (by decide) (by decide) (by decide)
      (by decide)).1,
    by decide⟩

theorem Stretched.trans {a b : Nat} {s t u : Str} (h1 : Stretched a s t)
    (h2 : Stretched b t u) : Stretched (a + b) s u := by
  induction h2 with
  | refl _ => exact h1
  | step n _ x y _ ih => exact Stretched.step (a + n) s x y (ih h1)

theorem justify_steps_stretched (width : Nat) (rtl : Bool) :
    ∀ (n : Nat) (slug : Str) (padding : Int) (i : Nat),
      ∃ m, Stretched m slug (justify_steps width rtl n slug padding i)
  | 0, slug, _, _ => ⟨0, Stretched.refl slug⟩
  | n + 1, slug, padding, i => by
    rw [justify_steps]
    obtain ⟨a, _, h1⟩ := rule_stretched slug (i % 4) (uchar_of_int padding) rtl
    split
    · split
      · obtain ⟨b, h2⟩ := justify_steps_stretched width rtl n
          (replace slug (justify_replacements (i % 4)).1 (justify_replacements (i % 4)).2
            (uchar_of_int padding) rtl)
          (padding_of width (replace slug (justify_replacements (i % 4)).1
            (justify_replacements (i % 4)).2 (uchar_of_int padding) rtl).length) (i + 1)
        exact ⟨a + b, h1.trans h2⟩
      · exact ⟨a, h1⟩
    · exact ⟨0, Stretched.refl slug⟩

/-- A result of the loop of `justify_slug` is the slug after as many turns as there
was fuel, or at the exit of the loop. -/
theorem justify_loop_steps (width : Nat) (rtl : Bool) :
    ∀ (fuel : Nat) (slug : Str) (padding : Int) (i : Nat) (out : Str),
      justify_loop width rtl fuel slug padding i = .returned out →
      out = justify_steps width rtl fuel slug padding i
  | 0, _, _, _, _, h => by simp [justify_loop_zero] at h
  | fuel + 1, slug, padding, i, out, h => by
    rw [justify_loop_succ] at h
    rw [justify_steps]
    split at h
    · rename_i hpos
      rw [if_pos hpos]
      split at h
      · rename_i hlt
        rw [if_pos hlt]
        exact justify_loop_steps width rtl fuel _ _ _ out h
      · exact absurd h (by simp)
    · rename_i hpos
      rw [if_neg hpos]
      exact (Outcome.returned.inj h).symm

theorem Stretched.same_tokens {n : Nat} {s t : Str} (h : Stretched n s t) :
    tokenize (t.length + 1) t [] [' '] = tokenize (s.length + 1) s [] [' '] := by
  rw [Align.tokenize_eq _ t [] [' '] (by omega), Align.tokenize_eq _ s [] [' '] (by omega),
    h.words_eq]

/-- C19. Justification only stretches existing gaps: after any number of turns of the
loop of `justify_slug`, and so in its result, the slug is the input with spaces inserted
next to spaces; it has the same tokens, the same first character and the same last
character as the input. -/
theorem justify_only_stretches (slug : Str) (width : Nat) (rtl : Bool) :
    (∀ n : Nat,
      (∃ m, Stretched m slug
        (justify_steps width rtl n slug (padding_of width slug.length) 0)) ∧
      tokenize ((justify_steps width rtl n slug (padding_of width slug.length) 0).length + 1)
          (justify_steps width rtl n slug (padding_of width slug.length) 0) [] [' ']
        = tokenize (slug.length + 1) slug [] [' '] ∧
      (justify_steps width rtl n slug (padding_of width slug.length) 0).head? = slug.head? ∧
      (justify_steps width rtl n slug (padding_of width slug.length) 0).getLast?
        = slug.getLast?) ∧
    (∀ (fuel : Nat) (out : Str), justify_slug fuel slug width rtl = some out →
      (∃ m, Stretched m slug out) ∧
      tokenize (out.length + 1) out [] [' '] = tokenize (slug.length + 1) slug [] [' '] ∧
      out.head? = slug.head? ∧ out.getLast? = slug.getLast?) := by
  have key : ∀ n : Nat,
      (∃ m, Stretched m slug
        (justify_steps width rtl n slug (padding_of width slug.length) 0)) ∧
      tokenize ((justify_steps width rtl n slug (padding_of width slug.length) 0).length + 1)
          (justify_steps width rtl n slug (padding_of width slug.length) 0) [] [' ']
        = tokenize (slug.length + 1) slug [] [' '] ∧
      (justify_steps width rtl n slug (padding_of width slug.length) 0).head? = slug.head? ∧
      (justify_steps width rtl n slug (padding_of width slug.length) 0).getLast?
        = slug.getLast? := by
    intro n
    obtain ⟨m, hm⟩ := justify_steps_stretched width rtl n slug (padding_of width slug.length) 0
    exact ⟨⟨m, hm⟩, hm.same_tokens, hm.head_eq, hm.getLast_eq⟩
  refine ⟨key, ?_⟩
  intro fuel out h
  have := justify_loop_steps width rtl fuel slug _ 0 out (justify_slug_eq_some.1 h)
  rw [this]
  exact key fuel

/-- C19, on the slug `One, two. three` at width 20: the result has the three words of
the input and starts and ends as it does. -/
theorem justify_only_stretches_witness :
    justify_slug 30 "One, two. three".toList 20 false = some "One,    two.   three".toList ∧
    ((∃ m, Stretched m "One, two. three".toList "One,    two.   three".toList) ∧
      tokenize ("One,    two.   three".toList.length + 1) "One,    two.   three".toList [] [' ']
        = tokenize ("One, two. three".toList.length + 1) "One, two. three".toList [] [' '] ∧
      "One,    two.   three".toList.head? = "One, two. three".toList.head? ∧
      "One,    two.   three".toList.getLast? = "One, two. three".toList.getLast?) :=
  ⟨by decide,
    (justify_only_stretches "One, two. three".toList 20 false).2 30 _ (by decide)⟩

/-! ## Aligning a slug again -/

theorem split_words_append_word (delims : Str) (rest : Str)
    (hrest : rest = [] ∨ ∃ d r, rest = d :: r ∧ delims.contains d = true) :
    ∀ w : Str, w ≠ [] → (∀ c ∈ w, delims.contains c = false) →
      split_words delims (w ++ rest) = w :: split_words delims rest
  | [], h, _ => absurd rfl h
  | [c], _, hw => by
    have hc : delims.contains c = false := hw c (by simp)
    rcases hrest with rfl | ⟨d, r, rfl, hd⟩
    · show split_words delims [c] = [c] :: split_words delims []
      simp only [split_words, hc, Bool.false_eq_true, if_false]
    · simp only [List.singleton_append]
      rw [split_words_cons_cons _ _ _ _ hc, if_pos hd]
  | c :: d :: w, _, hw => by
    have hc : delims.contains c = false := hw c (by simp)
    have hd : delims.contains d = false := hw d (by simp)
    have ih := split_words_append_word delims rest hrest (d :: w) (by simp)
      (fun x hx => hw x (List.mem_cons_of_mem _ hx))
    simp only [List.cons_append] at ih ⊢
    rw [split_words_cons_cons _ _ _ _ hc, ih]
    simp only [hd, Bool.false_eq_true, if_false]

/-- The words of a group joined by spaces are the group, when no word is empty or
holds a space. -/
theorem split_words_unwords : ∀ g : List Str, (∀ w ∈ g, w ≠ [] ∧ ' ' ∉ w) →
    split_words [' '] (unwords g) = g
  | [], _ => rfl
  | [w], h => by
    rw [unwords_singleton]
    have := split_words_append_word [' '] [] (Or.inl rfl) w (h w (by simp)).1
      (fun c hc => by
        have : c ≠ ' ' := fun e => (h w (by simp)).2 (e ▸ hc)
        simpa using this)
    simpa [split_words] using this
  | w :: v :: g, h => by
    rw [unwords_cons_cons]
    have ih := split_words_unwords (v :: g) (fun u hu => h u (List.mem_cons_of_mem _ hu))
    rw [split_words_append_word [' '] _ (Or.inr ⟨' ', _, rfl, by decide⟩) w (h w (by simp)).1
      (fun c hc => by
        have : c ≠ ' ' := fun e => (h w (by simp)).2 (e ▸ hc)
        simpa using this),
      split_words_cons_delim [' '] ' ' _ (by decide), ih]

theorem length_trail_append (a b : List Str) :
    (trail (a ++ b)).length = (trail a).length + (trail b).length := by
  induction a with
  | nil => simp [trail]
  | cons w a ih => simp [trail, ih]; omega

/-- A group whose slug under construction fits the width is packed into one slug. -/
theorem pack_fits (width : Nat) : ∀ (ws g : List Str), (trail (g ++ ws)).length ≤ width →
    pack width ws g = ([], g ++ ws)
  | [], g, _ => by simp [pack]
  | w :: ws, g, h => by
    have h1 : (trail g).length + 1 + w.length ≤ width := by
      rw [length_trail_append] at h
      simp only [trail, List.length_append, List.length_cons] at h
      omega
    rw [pack, if_pos h1, pack_fits width ws (g ++ [w]) (by simpa using h)]
    simp

theorem trim_copy_eq_self (s : Str) (h1 : ∀ c, s.head? = some c → is_space c = false)
    (h2 : ∀ c, s.getLast? = some c → is_space c = false) : trim_copy s = s := by
  unfold trim_copy
  have hr : s.reverse.dropWhile is_space = s.reverse := by
    cases hs : s.reverse with
    | nil => rfl
    | cons x r =>
      have hx : s.getLast? = some x := by
        rw [← List.head?_reverse, hs]
        rfl
      exact List.dropWhile_cons_of_neg (by simp [h2 x hx])
  rw [hr, List.reverse_reverse]
  cases s with
  | nil => rfl
  | cons c t => exact List.dropWhile_cons_of_neg (by simp [h1 c rfl])

theorem head_unwords (c : Char) (w : Str) (g : List Str) :
    (unwords ((c :: w) :: g)).head? = some c := by
  rw [unwords_cons]
  split <;> rfl

theorem getLast_unwords : ∀ g : List Str, g ≠ [] → (∀ w ∈ g, w ≠ []) →
    ∃ w ∈ g, ∃ c ∈ w, (unwords g).getLast? = some c
  | [], h, _ => absurd rfl h
  | [w], _, hw => by
    rw [unwords_singleton]
    have hne := hw w (by simp)
    refine ⟨w, by simp, w.getLast hne, List.getLast_mem hne, ?_⟩
    exact List.getLast?_eq_getLast _ hne
  | w :: v :: g, _, hw => by
    obtain ⟨u, hu, c, hc, hl⟩ := getLast_unwords (v :: g) (by simp)
      (fun x hx => hw x (List.mem_cons_of_mem _ hx))
    refine ⟨u, List.mem_cons_of_mem _ hu, c, hc, ?_⟩
    rw [unwords_cons_cons]
    obtain ⟨ys, hys⟩ := List.getLast?_eq_some_iff.1 hl
    rw [hys]
    apply List.getLast?_eq_some_iff.2
    exact ⟨w ++ ' ' :: ys, by simp⟩

/-- A slug that fits the width, of words without white space, is aligned to itself. -/
theorem realign_slug (width : Nat) (g : List Str)
    (hg : ∀ w ∈ g, w ≠ [] ∧ ∀ c ∈ w, is_space c = false)
    (hfit : (trail g).length ≤ width) (fuel : Nat) (hfuel : (unwords g).length < fuel) :
    align_para fuel (unwords g) width .align_left = some (unwords g) := by
  cases g with
  | nil =>
    have hp : pass_through (trim_copy (unwords [])) = true := by decide
    simp [align_para, hp]
  | cons w g =>
    obtain ⟨c, w1, rfl⟩ : ∃ c w1, w = c :: w1 := by
      cases w with
      | nil => exact absurd rfl (hg [] (by simp)).1
      | cons c w1 => exact ⟨c, w1, rfl⟩
    have htrim : trim_copy (unwords ((c :: w1) :: g)) = unwords ((c :: w1) :: g) := by
      apply trim_copy_eq_self
      · intro x hx
        rw [head_unwords] at hx
        have := Option.some.inj hx
        subst this
        exact (hg (c :: w1) (by simp)).2 c (by simp)
      · intro x hx
        obtain ⟨u, hu, y, hy, hl⟩ := getLast_unwords ((c :: w1) :: g) (by simp)
          (fun v hv => (hg v hv).1)
        rw [hl] at hx
        have := Option.some.inj hx
        subst this
        exact (hg u hu).2 y hy
    by_cases hp : pass_through (trim_copy (unwords ((c :: w1) :: g))) = true
    · simp [align_para, hp]
    · have hp1 : pass_through (trim_copy (unwords ((c :: w1) :: g))) = false := by
        simpa using hp
      rw [align_para_total fuel _ width .align_left hfuel hp1 (by decide), htrim]
      have hsw : split_words [' '] (unwords ((c :: w1) :: g)) = (c :: w1) :: g := by
        apply split_words_unwords
        intro v hv
        refine ⟨(hg v hv).1, fun hsp => ?_⟩
        have := (hg v hv).2 ' ' hsp
        exact absurd this (by decide)
      have hpack := pack_fits width ((c :: w1) :: g) [] (by simpa using hfit)
      rw [hsw]
      simp only [groups, hpack, List.nil_append, List.map_cons, List.map_nil, close_final,
        join_slugs]

/-- C20. Left-mode idempotence: for a line whose white space is spaces only and whose
words are all shorter than the width, with fuel above its length, every line of the
output of `align_para` in left mode is aligned to itself. -/
theorem left_idempotent (fuel : Nat) (line : Str) (width : Nat) (words : List Str)
    (hfuel : line.length < fuel) (hws : ∀ c ∈ line, is_space c = true → c = ' ')
    (htok : tokenize fuel (trim_copy line) [] [' '] = some words)
    (hwords : ∀ w ∈ words, w.length < width) :
    ∃ out, align_para fuel line width .align_left = some out ∧
      ∀ L ∈ lines_of out, ∀ fuel2 : Nat, L.length < fuel2 →
        align_para fuel2 L width .align_left = some L := by
  have hnl : '\n' ∉ line := fun h => absurd (hws _ h (by decide)) (by decide)
  by_cases hp : pass_through (trim_copy line) = true
  · refine ⟨line, by simp [align_para, hp], ?_⟩
    intro L hL fuel2 _
    rw [lines_of_single line hnl] at hL
    have := List.mem_singleton.1 hL
    subst this
    simp [align_para, hp]
  · have hp1 : pass_through (trim_copy line) = false := by simpa using hp
    refine ⟨_, align_para_total fuel line width .align_left hfuel hp1 (by decide), ?_⟩
    intro L hL fuel2 hfuel2
    rw [lines_of_join_slugs _ (by simp [groups_ne_nil])
      (slug_no_newline line width .align_left hnl)] at hL
    obtain ⟨g, hg, rfl⟩ := List.mem_map.1 hL
    simp only [close_final] at hfuel2 ⊢
    have hwd : words = split_words [' '] (trim_copy line) := by
      simpa using tokenize_some_eq htok
    have hgw : ∀ w ∈ g, w ≠ [] ∧ ∀ c ∈ w, is_space c = false := by
      intro w hw
      have hmem := mem_of_mem_groups hg hw
      obtain ⟨h1, h2, h3⟩ := split_words_mem [' '] (trim_copy line) w hmem
      refine ⟨h1, fun c hc => ?_⟩
      cases hsp : is_space c with
      | false => rfl
      | true =>
        have := hws c ((trim_copy_sublist line).subset (h2.subset hc)) hsp
        exact absurd (this ▸ hc) (fun h => h3 ' ' h (by simp))
    have hfit : (trail g).length ≤ width := by
      rcases groups_bound width _ g hg with h | ⟨w, rfl⟩
      · exact h
      · have := hwords w (hwd ▸ mem_of_mem_groups hg (by simp))
        simp [trail]
        omega
    exact realign_slug width g hgw hfit fuel2 hfuel2

/-- C20, on the line of the specification at width 20, and the need for the bound on
the words: at width 3 the line `abc` gives an empty line before the word. -/
theorem left_idempotent_witness :
    ("The quick brown fox jumps over the lazy dog".toList.length < 44 ∧
      (∀ c ∈ "The quick brown fox jumps over the lazy dog".toList,
        is_space c = true → c = ' ') ∧
      tokenize 44 (trim_copy "The quick brown fox jumps over the lazy dog".toList) [] [' ']
        = some ["The".toList, "quick".toList, "brown".toList, "fox".toList, "jumps".toList,
            "over".toList, "the".toList, "lazy".toList, "dog".toList] ∧
      ∀ w ∈ ["The".toList, "quick".toList, "brown".toList, "fox".toList, "jumps".toList,
            "over".toList, "the".toList, "lazy".toList, "dog".toList], w.length < 20) ∧
    (∃ out, align_para 44 "The quick brown fox jumps over the lazy dog".toList 20 .align_left
        = some out ∧
      ∀ L ∈ lines_of out, ∀ fuel2 : Nat, L.length < fuel2 →
        align_para fuel2 L 20 .align_left = some L) ∧
    align_para 4 "abc".toList 3 .align_left = some "\nabc".toList :=
  ⟨⟨by decide, by decide, by decide, by decide⟩,
    left_idempotent 44 "The quick brown fox jumps over the lazy dog".toList 20
      ["The".toList, "quick".toList, "brown".toList, "fox".toList, "jumps".toList,
        "over".toList, "the".toList, "lazy".toList, "dog".toList]
      (by decide) (by decide) (by decide) (by decide),
    by decide⟩

end Align
